import Mathlib

/-!
Verification development for the document-workspace core: the role-gated
workflow state machine, the revision/diff engine, and the relationship
graph manager. Code is embedded shallowly: TypeScript functions become
Lean functions over explicit state values, fallible storage calls become
explicit result values, timestamps become natural numbers, and the text
type used by the diff engine is the list of characters of the underlying
string. Sources embedded here: src/types/permissions.ts,
src/lib/permissions.ts, src/lib/repositories/spec-repository.ts,
src/lib/repositories/revision-repository.ts,
src/lib/repositories/traceability-repository.ts, the spec update route
(PUT), the workflow transition route (POST), the traceability link route
(POST), and the revision-compare route with its generateDiff function.
-/

/-! ## Part 1: Permission tables and workflow validation
Embeds src/types/permissions.ts and src/lib/permissions.ts. -/

/-- WorkflowStage from src/types/permissions.ts. -/
inductive WorkflowStage where
  | Idea | Draft | Review | Ready | InProgress | Done
deriving DecidableEq, Fintype

/-- UserRole from src/types/auth.ts. -/
inductive UserRole where
  | PM | TA | Dev | QA | Stakeholder
deriving DecidableEq, Fintype

/-- Permission from src/types/permissions.ts. Constructor names replace the
colon of the string tag by camel case, e.g. specCreate stands for the
string tag spec colon create. -/
inductive Permission where
  | specCreate | specRead | specUpdate | specDelete | specTransition
  | commentCreate | commentRead | commentUpdate | commentDelete
  | traceabilityCreate | traceabilityRead | traceabilityDelete
  | fileUpload | fileRead | aiUse
deriving DecidableEq, Fintype

/-- WorkflowTransition record from src/types/permissions.ts. The source
field named from is a reserved word in Lean, hence fromStage and toStage. -/
structure WorkflowTransition where
  fromStage : WorkflowStage
  toStage : WorkflowStage
  allowedRoles : List UserRole
deriving DecidableEq

/-- WORKFLOW_TRANSITIONS table from src/types/permissions.ts. -/
def WORKFLOW_TRANSITIONS : List WorkflowTransition :=
  [ ⟨.Idea, .Draft, [.PM, .TA]⟩,
    ⟨.Draft, .Review, [.PM, .TA]⟩,
    ⟨.Review, .Draft, [.PM]⟩,
    ⟨.Review, .Ready, [.PM, .Stakeholder]⟩,
    ⟨.Ready, .InProgress, [.Dev]⟩,
    ⟨.InProgress, .Done, [.QA]⟩ ]

/-- ROLE_PERMISSIONS table from src/types/permissions.ts, a record mapping
each role to its capability list. -/
def ROLE_PERMISSIONS : UserRole → List Permission
  | .PM =>
      [.specCreate, .specRead, .specUpdate, .specDelete, .specTransition,
       .commentCreate, .commentRead, .commentUpdate, .commentDelete,
       .traceabilityCreate, .traceabilityRead, .traceabilityDelete,
       .fileUpload, .fileRead, .aiUse]
  | .TA =>
      [.specCreate, .specRead, .specUpdate, .specTransition,
       .commentCreate, .commentRead, .commentUpdate,
       .traceabilityCreate, .traceabilityRead, .fileUpload, .fileRead, .aiUse]
  | .Dev =>
      [.specRead, .specUpdate, .specTransition, .commentCreate, .commentRead,
       .traceabilityRead, .fileUpload, .fileRead, .aiUse]
  | .QA =>
      [.specRead, .specTransition, .commentCreate, .commentRead,
       .traceabilityRead, .fileRead, .aiUse]
  | .Stakeholder =>
      [.specRead, .specTransition, .commentCreate, .commentRead,
       .traceabilityRead, .fileRead]

/-- The pair of static tables consulted by src/lib/permissions.ts. The
source reads two module-level constants; the embedding passes them as an
explicit parameter so that dependence on each table can be stated. -/
structure PermissionTables where
  workflowTransitions : List WorkflowTransition
  rolePermissions : UserRole → List Permission

/-- The tables as defined in src/types/permissions.ts. -/
def DEFAULT_TABLES : PermissionTables :=
  ⟨WORKFLOW_TRANSITIONS, ROLE_PERMISSIONS⟩

/-- hasPermission from src/lib/permissions.ts, over explicit tables. -/
def hasPermissionIn (tables : PermissionTables) (role : UserRole)
    (permission : Permission) : Bool :=
  decide (permission ∈ tables.rolePermissions role)

/-- hasPermission from src/lib/permissions.ts. -/
def hasPermission (role : UserRole) (permission : Permission) : Bool :=
  hasPermissionIn DEFAULT_TABLES role permission

/-- canTransitionWorkflow from src/lib/permissions.ts, over explicit
tables: find the transition entry, return false when absent, otherwise
test membership of the role in its allowedRoles. -/
def canTransitionWorkflowIn (tables : PermissionTables) (role : UserRole)
    (fromStage toStage : WorkflowStage) : Bool :=
  match tables.workflowTransitions.find?
      (fun t => decide (t.fromStage = fromStage ∧ t.toStage = toStage)) with
  | none => false
  | some t => decide (role ∈ t.allowedRoles)

/-- canTransitionWorkflow from src/lib/permissions.ts. -/
def canTransitionWorkflow (role : UserRole)
    (fromStage toStage : WorkflowStage) : Bool :=
  canTransitionWorkflowIn DEFAULT_TABLES role fromStage toStage

/-- getValidTransitions from src/lib/permissions.ts. -/
def getValidTransitions (role : UserRole) (currentStage : WorkflowStage) :
    List WorkflowStage :=
  (WORKFLOW_TRANSITIONS.filter
      (fun t => decide (t.fromStage = currentStage ∧ role ∈ t.allowedRoles))).map
    (fun t => t.toStage)

/-- isValidTransition from src/lib/permissions.ts, over explicit tables. -/
def isValidTransitionIn (tables : PermissionTables)
    (fromStage toStage : WorkflowStage) : Bool :=
  tables.workflowTransitions.any
    (fun t => decide (t.fromStage = fromStage ∧ t.toStage = toStage))

/-- isValidTransition from src/lib/permissions.ts. -/
def isValidTransition (fromStage toStage : WorkflowStage) : Bool :=
  isValidTransitionIn DEFAULT_TABLES fromStage toStage

deriving instance DecidableEq for Except

/-- Error kinds of transition validation as reported by the transition
route: INVALID_TRANSITION (status 400) and FORBIDDEN (status 403). -/
inductive TransitionError where
  | InvalidTransition | Forbidden
deriving DecidableEq

/-- The validation portion of POST src/app/api/specs/[id]/transition/route.ts
lines 59 to 85: first the structural check via isValidTransition, then the
role check via canTransitionWorkflow. -/
def validateTransitionIn (tables : PermissionTables)
    (currentStage toStage : WorkflowStage) (role : UserRole) :
    Except TransitionError Unit :=
  if !(isValidTransitionIn tables currentStage toStage) then
    .error .InvalidTransition
  else if !(canTransitionWorkflowIn tables role currentStage toStage) then
    .error .Forbidden
  else
    .ok ()

/-- Transition validation with the tables of src/types/permissions.ts. -/
def validateTransition (currentStage toStage : WorkflowStage)
    (role : UserRole) : Except TransitionError Unit :=
  validateTransitionIn DEFAULT_TABLES currentStage toStage role

/-! ## Part 2: Documents, revisions, and the update and transition flows
Embeds src/types/spec.ts, src/lib/repositories/spec-repository.ts,
src/lib/repositories/revision-repository.ts, the yaml-parser helpers used
by the update route, the PUT handler of the spec route, and the POST
handler of the transition route. The Mongo collections become two lists;
insertOne appends, findOneAndUpdate maps over the list (document ids are
unique, being the Mongo primary key). Timestamps are naturals. -/

/-- SpecType from src/types/spec.ts. -/
inductive SpecType where
  | epic | userStory | technicalSpec | testCase
deriving DecidableEq

/-- SpecMetadata from src/types/spec.ts. -/
structure SpecMetadata where
  title : String
  status : WorkflowStage
  type : SpecType
  assignee : Option String
  tags : List String
  parentId : Option String
deriving DecidableEq

/-- Spec document from src/types/spec.ts. -/
structure Spec where
  _id : String
  title : String
  content : String
  metadata : SpecMetadata
  createdBy : String
  createdAt : Nat
  updatedBy : String
  updatedAt : Nat
  currentVersion : Nat
deriving DecidableEq

/-- Revision snapshot from src/types/spec.ts. -/
structure Revision where
  _id : String
  specId : String
  version : Nat
  content : String
  metadata : SpecMetadata
  author : String
  timestamp : Nat
deriving DecidableEq

/-- The two Mongo collections touched by the update and transition flows. -/
structure SpecDB where
  specs : List Spec
  revisions : List Revision
deriving DecidableEq

/-- findById of the specs collection (BaseRepository.findById). -/
def findSpecById (specs : List Spec) (id : String) : Option Spec :=
  specs.find? (fun s => decide (s._id = id))

/-- SpecRepository.createSpec: insert a new document with currentVersion 1.
The Mongo-generated object id is passed in as newId. -/
def createSpec (db : SpecDB) (newId title content : String)
    (metadata : SpecMetadata) (createdBy : String) (now : Nat) :
    Spec × SpecDB :=
  let spec : Spec :=
    { _id := newId, title := title, content := content, metadata := metadata,
      createdBy := createdBy, createdAt := now, updatedBy := createdBy,
      updatedAt := now, currentVersion := 1 }
  (spec, { db with specs := db.specs ++ [spec] })

/-- SpecRepository.updateSpec: fetch the document, then findOneAndUpdate
setting content, metadata, title, updatedBy, updatedAt and bumping
currentVersion by one from the fetched value. -/
def updateSpec (db : SpecDB) (id content : String) (metadata : SpecMetadata)
    (updatedBy : String) (now : Nat) : Option Spec × SpecDB :=
  match findSpecById db.specs id with
  | none => (none, db)
  | some spec =>
    let updated : Spec :=
      { spec with
        content := content
        metadata := metadata
        title := metadata.title
        updatedBy := updatedBy
        updatedAt := now
        currentVersion := spec.currentVersion + 1 }
    (some updated,
     { db with specs := db.specs.map (fun t => if t._id = id then updated else t) })

/-- SpecRepository.transitionStage: fetch the document, then
findOneAndUpdate setting only the dotted field metadata.status together
with updatedBy and updatedAt. -/
def transitionStage (db : SpecDB) (id : String) (newStage : WorkflowStage)
    (updatedBy : String) (now : Nat) : Option Spec × SpecDB :=
  match findSpecById db.specs id with
  | none => (none, db)
  | some spec =>
    let updated : Spec :=
      { spec with
        metadata := { spec.metadata with status := newStage }
        updatedBy := updatedBy
        updatedAt := now }
    (some updated,
     { db with specs := db.specs.map (fun t => if t._id = id then updated else t) })

/-- RevisionRepository.createRevision: insert a snapshot carrying the
supplied version number, body, metadata and author. -/
def createRevision (db : SpecDB) (newId specId : String) (version : Nat)
    (content : String) (metadata : SpecMetadata) (author : String)
    (now : Nat) : Revision × SpecDB :=
  let rev : Revision :=
    { _id := newId, specId := specId, version := version, content := content,
      metadata := metadata, author := author, timestamp := now }
  (rev, { db with revisions := db.revisions ++ [rev] })

/-- Stage names as serialized by the yaml layer. -/
def stageName : WorkflowStage → String
  | .Idea => "Idea" | .Draft => "Draft" | .Review => "Review"
  | .Ready => "Ready" | .InProgress => "InProgress" | .Done => "Done"

/-- Spec type names as serialized by the yaml layer. -/
def specTypeName : SpecType → String
  | .epic => "epic" | .userStory => "user-story"
  | .technicalSpec => "technical-spec" | .testCase => "test-case"

/-- serializeValue from the yaml-parser module: quote strings containing a
colon, a hash sign, or a newline, escaping embedded quotes. -/
def serializeValue (value : String) : String :=
  if value.contains ':' || value.contains '#' || value.contains '\n' then
    "\"" ++ (value.replace ("\"") ("\\\"")) ++ "\""
  else value

/-- serializeFrontmatter from the yaml-parser module: one line per defined
metadata entry, in the key order of the metadata schema, enclosed in
triple-dash fences. -/
def serializeFrontmatter (metadata : SpecMetadata) : String :=
  let tagLines : List String :=
    if metadata.tags = [] then ["tags: []"]
    else "tags:" :: metadata.tags.map (fun t => "  - " ++ serializeValue t)
  let lines : List String :=
    ["---", "title: " ++ serializeValue metadata.title,
     "status: " ++ stageName metadata.status,
     "type: " ++ specTypeName metadata.type] ++
    (match metadata.assignee with
     | none => [] | some a => ["assignee: " ++ serializeValue a]) ++
    tagLines ++
    (match metadata.parentId with
     | none => [] | some p => ["parentId: " ++ serializeValue p]) ++
    ["---"]
  String.intercalate ("\n") lines

/-- combineMarkdown from the yaml-parser module. -/
def combineMarkdown (metadata : SpecMetadata) (content : String) : String :=
  serializeFrontmatter metadata ++ "\n\n" ++ content

/-- validateMetadata from the yaml-parser module: the zod schema accepts
exactly the values of the SpecMetadata type, so on typed input it is the
identity. -/
def validateMetadata (metadata : SpecMetadata) : SpecMetadata := metadata

/-- Storage events recorded by the update flow, in execution order. -/
inductive DbEvent where
  | revisionInsert (specId : String) (version : Nat)
  | specUpdate (specId : String)
deriving DecidableEq

/-- Outcome of the PUT handler of the spec route, one constructor per
response branch. -/
inductive PutResult where
  | forbidden
  | notFound
  | storageFailure
  | internalError
  | ok (spec : Spec)
deriving DecidableEq

/-- PUT src/app/api/specs/[id]/files route section (the spec update
handler): check the update capability, validate, combine the markdown,
fetch the existing document, snapshot it as a revision, then update the
live document. The revision insert is the sole fallible storage call kept
explicit (revisionWriteOk); when it rejects, the exception lands in the
catch block before updateSpec runs, so the handler answers with an error
and no write happens. The returned event list records the completed
storage writes in execution order. -/
def putSpec (role : UserRole) (userId : String) (db : SpecDB) (id : String)
    (content : String) (metadata : SpecMetadata) (revisionId : String)
    (revisionWriteOk : Bool) (now : Nat) :
    PutResult × SpecDB × List DbEvent :=
  if !(hasPermission role .specUpdate) then (.forbidden, db, [])
  else
    let metadata := validateMetadata metadata
    let fullContent := combineMarkdown metadata content
    match findSpecById db.specs id with
    | none => (.notFound, db, [])
    | some existingSpec =>
      if !revisionWriteOk then (.storageFailure, db, [])
      else
        let r1 := createRevision db revisionId existingSpec._id
          existingSpec.currentVersion existingSpec.content
          existingSpec.metadata userId now
        match updateSpec r1.2 id fullContent metadata userId now with
        | (none, db2) =>
            (.internalError, db2,
             [.revisionInsert existingSpec._id existingSpec.currentVersion])
        | (some updated, db2) =>
            (.ok updated, db2,
             [.revisionInsert existingSpec._id existingSpec.currentVersion,
              .specUpdate id])

/-- Outcome of the POST handler of the transition route, one constructor
per response branch. -/
inductive TransitionResult where
  | notFound
  | invalidTransition
  | forbidden
  | internalError
  | ok (spec : Spec)
deriving DecidableEq

/-- POST src/app/api/specs/[id]/transition/route.ts over explicit
permission tables: fetch the document, check the stage pair against the
transition table, check the role, then transitionStage. The tables are a
parameter so that dependence on each of the two static tables can be
stated; the route as shipped runs with DEFAULT_TABLES. -/
def transitionPOSTIn (tables : PermissionTables) (role : UserRole)
    (userId : String) (db : SpecDB) (id : String)
    (toStage : WorkflowStage) (now : Nat) : TransitionResult × SpecDB :=
  match findSpecById db.specs id with
  | none => (.notFound, db)
  | some spec =>
    let currentStage := spec.metadata.status
    if !(isValidTransitionIn tables currentStage toStage) then
      (.invalidTransition, db)
    else if !(canTransitionWorkflowIn tables role currentStage toStage) then
      (.forbidden, db)
    else
      match transitionStage db id toStage userId now with
      | (none, db2) => (.internalError, db2)
      | (some updated, db2) => (.ok updated, db2)

/-- The transition route with the tables of src/types/permissions.ts. -/
def transitionPOST (role : UserRole) (userId : String) (db : SpecDB)
    (id : String) (toStage : WorkflowStage) (now : Nat) :
    TransitionResult × SpecDB :=
  transitionPOSTIn DEFAULT_TABLES role userId db id toStage now

/-- One update request against a fixed document, with its storage-failure
oracle for the revision insert. -/
structure UpdateReq where
  role : UserRole
  userId : String
  content : String
  metadata : SpecMetadata
  revisionId : String
  revisionWriteOk : Bool
  now : Nat

/-- Apply a sequence of update requests to one document through the PUT
handler, threading the database. -/
def applyUpdates (id : String) (db : SpecDB) : List UpdateReq → SpecDB
  | [] => db
  | r :: rs =>
      applyUpdates id
        (putSpec r.role r.userId db id r.content r.metadata r.revisionId
          r.revisionWriteOk r.now).2.1 rs

/-- Count of stored revisions for one document. -/
def revisionCount (db : SpecDB) (id : String) : Nat :=
  (db.revisions.filter (fun r => decide (r.specId = id))).length

/-- The version invariant of the data model: whenever the document exists,
its live currentVersion exceeds its stored revision count by one. -/
def VersionInv (db : SpecDB) (id : String) : Prop :=
  ∀ s, findSpecById db.specs id = some s →
    s.currentVersion = revisionCount db id + 1

/-! ## Part 3: Relationship graph manager
Embeds src/lib/repositories/traceability-repository.ts and the POST
handler of src/app/api/traceability/link/route.ts. The Mongo collection
of links becomes a list; the while-loop of getAncestors becomes a
recursion on queue and visited set, the inner for-loop over the fetched
parents becomes addNewAncestors. -/

/-- TraceabilityLink from src/types/spec.ts. -/
structure TraceabilityLink where
  _id : String
  parentId : String
  childId : String
  createdBy : String
  createdAt : Nat
deriving DecidableEq

/-- TraceabilityRepository.findChildren. -/
def findChildren (links : List TraceabilityLink) (parentId : String) :
    List TraceabilityLink :=
  links.filter (fun e => decide (e.parentId = parentId))

/-- TraceabilityRepository.findParents. -/
def findParents (links : List TraceabilityLink) (childId : String) :
    List TraceabilityLink :=
  links.filter (fun e => decide (e.childId = childId))

/-- TraceabilityRepository.findLink. -/
def findLink (links : List TraceabilityLink) (parentId childId : String) :
    Option TraceabilityLink :=
  links.find? (fun e => decide (e.parentId = parentId ∧ e.childId = childId))

/-- The inner for-loop of getAncestors: for each fetched parent id not yet
in the visited set, append it to the visited set and to the queue. -/
def addNewAncestors (ancestors queue : List String) :
    List String → List String × List String
  | [] => (ancestors, queue)
  | p :: ps =>
      if p ∈ ancestors then addNewAncestors ancestors queue ps
      else addNewAncestors (ancestors ++ [p]) (queue ++ [p]) ps

/-- The while-loop of TraceabilityRepository.getAncestors: shift an id off
the queue, fetch its direct parents, and record the unseen ones. The
visited set guards termination even on malformed cyclic data; the measure
counts the parent ids not yet visited. -/
def getAncestorsLoop (links : List TraceabilityLink)
    (queue ancestors : List String) : List String :=
  match queue with
  | [] => ancestors
  | currentId :: rest =>
    let parents := (findParents links currentId).map (fun e => e.parentId)
    let r := addNewAncestors ancestors rest parents
    getAncestorsLoop links r.2 r.1
termination_by
  2 * (((links.map (fun e => e.parentId)).toFinset \ ancestors.toFinset).card)
    + queue.length
decreasing_by
  have key : ∀ (ps anc q : List String), ∃ news,
      addNewAncestors anc q ps = (anc ++ news, q ++ news) ∧ news.Nodup ∧
        ∀ x ∈ news, x ∈ ps ∧ x ∉ anc := by
    intro ps
    induction ps with
    | nil =>
        intro anc q
        exact ⟨[], by simp [addNewAncestors], by simp, by simp⟩
    | cons p ps ih =>
        intro anc q
        by_cases hp : p ∈ anc
        · obtain ⟨news, h1, h2, h3⟩ := ih anc q
          exact ⟨news, by simpa [addNewAncestors, hp] using h1, h2,
            fun x hx => ⟨List.mem_cons_of_mem _ (h3 x hx).1, (h3 x hx).2⟩⟩
        · obtain ⟨news, h1, h2, h3⟩ := ih (anc ++ [p]) (q ++ [p])
          refine ⟨p :: news, ?_, ?_, ?_⟩
          · simpa [addNewAncestors, hp] using h1
          · exact List.nodup_cons.mpr ⟨fun hx => ((h3 p hx).2 (by simp)), h2⟩
          · intro x hx
            rcases List.mem_cons.mp hx with rfl | hx
            · exact ⟨by simp, hp⟩
            · have := h3 x hx
              exact ⟨List.mem_cons_of_mem _ this.1,
                fun hxa => this.2 (by simp [hxa])⟩
  obtain ⟨news, h1, h2, h3⟩ :=
    key ((findParents links p).map (fun e => e.parentId)) ancestors ps
  rw [h1]
  have hsub : news.toFinset ⊆
      (links.map (fun e => e.parentId)).toFinset \ ancestors.toFinset := by
    intro x hx
    simp only [List.mem_toFinset] at hx
    have hx2 := h3 x hx
    simp only [Finset.mem_sdiff, List.mem_toFinset]
    refine ⟨?_, hx2.2⟩
    have hxp := hx2.1
    simp only [findParents, List.mem_map, List.mem_filter] at hxp
    obtain ⟨e, he, rfl⟩ := hxp
    exact List.mem_map.mpr ⟨e, he.1, rfl⟩
  have hcard : (((links.map (fun e => e.parentId)).toFinset \
        (ancestors ++ news).toFinset).card)
      = ((links.map (fun e => e.parentId)).toFinset \
          ancestors.toFinset).card - news.length := by
    have hset : (links.map (fun e => e.parentId)).toFinset \
          (ancestors ++ news).toFinset
        = ((links.map (fun e => e.parentId)).toFinset \
            ancestors.toFinset) \ news.toFinset := by
      ext x
      simp only [Finset.mem_sdiff, List.mem_toFinset, List.mem_append]
      tauto
    rw [hset, Finset.card_sdiff hsub, List.toFinset_card_of_nodup h2]
  have hle : news.length ≤
      ((links.map (fun e => e.parentId)).toFinset \ ancestors.toFinset).card := by
    calc news.length = news.toFinset.card :=
          (List.toFinset_card_of_nodup h2).symm
    _ ≤ _ := Finset.card_le_card hsub
  rw [hcard]
  simp only [List.length_append, List.length_cons]
  omega

/-- TraceabilityRepository.getAncestors: breadth-first walk of
child-to-parent edges starting from specId, with a visited set. -/
def getAncestors (links : List TraceabilityLink) (specId : String) :
    List String :=
  getAncestorsLoop links [specId] []

/-- TraceabilityRepository.hasCircularDependency: the proposed child is
already an ancestor of the proposed parent. -/
def hasCircularDependency (links : List TraceabilityLink)
    (parentId childId : String) : Bool :=
  decide (childId ∈ getAncestors links parentId)

/-- Error thrown by TraceabilityRepository.createLink. -/
inductive CreateLinkError where
  | CircularDependency
deriving DecidableEq

/-- TraceabilityRepository.createLink: throw on a circular dependency,
otherwise insert the edge. The Mongo-generated id is passed as newId. -/
def createLink (links : List TraceabilityLink)
    (newId parentId childId createdBy : String) (now : Nat) :
    Except CreateLinkError (TraceabilityLink × List TraceabilityLink) :=
  if hasCircularDependency links parentId childId then
    .error .CircularDependency
  else
    let link : TraceabilityLink :=
      { _id := newId, parentId := parentId, childId := childId,
        createdBy := createdBy, createdAt := now }
    .ok (link, links ++ [link])

/-- State touched by the link route: the specs collection (existence
checks) and the traceability collection. -/
structure LinkDB where
  specs : List Spec
  links : List TraceabilityLink
deriving DecidableEq

/-- Outcome of the POST handler of the link route, one constructor per
response branch. -/
inductive LinkRouteResult where
  | selfLinkRejected
  | parentNotFound
  | childNotFound
  | duplicateLink
  | circularDependency
  | created (link : TraceabilityLink)
deriving DecidableEq

/-- POST src/app/api/traceability/link/route.ts: reject a self link,
check both specs exist, reject a duplicate edge, then createLink, whose
circular-dependency throw is answered as a validation error. -/
def linkPOST (db : LinkDB) (parentId childId userEmail newId : String)
    (now : Nat) : LinkRouteResult × LinkDB :=
  if parentId = childId then (.selfLinkRejected, db)
  else
    match findSpecById db.specs parentId with
    | none => (.parentNotFound, db)
    | some _ =>
      match findSpecById db.specs childId with
      | none => (.childNotFound, db)
      | some _ =>
        match findLink db.links parentId childId with
        | some _ => (.duplicateLink, db)
        | none =>
          match createLink db.links newId parentId childId userEmail now with
          | .error .CircularDependency => (.circularDependency, db)
          | .ok (link, links2) => (.created link, { db with links := links2 })

/-- One link-creation request as accepted by the link route. -/
structure LinkReq where
  parentId : String
  childId : String
  userEmail : String
  newId : String
  now : Nat

/-- Apply a sequence of link-creation requests through the route,
threading the state. -/
def applyLinkRequests (db : LinkDB) : List LinkReq → LinkDB
  | [] => db
  | r :: rs =>
      applyLinkRequests
        (linkPOST db r.parentId r.childId r.userEmail r.newId r.now).2 rs

/-- One child-to-parent step along a stored edge. -/
def parentStep (links : List TraceabilityLink) (child parent : String) :
    Prop :=
  ∃ e ∈ links, e.childId = child ∧ e.parentId = parent

/-- The transitive ancestor relation: ancId is reachable from specId by
one or more child-to-parent steps. -/
def AncestorOf (links : List TraceabilityLink) (specId ancId : String) :
    Prop :=
  Relation.TransGen (parentStep links) specId ancId

/-- The relationship graph is a directed acyclic graph: no document is its
own transitive ancestor. -/
def Acyclic (links : List TraceabilityLink) : Prop :=
  ∀ n, ¬ AncestorOf links n n

/-! ## Part 4: Diff engine
Embeds the generateDiff function of the revision-compare route
(src/unnamed/part_003) together with a model of the line-diff library it
invokes. Text is embedded as the character list of the JavaScript string;
carriage returns are not modelled (the compare route operates on
newline-separated document bodies). -/

/-- Split a character list at every newline, like the JavaScript
String.split with separator newline: always at least one group, one more
group per newline character. -/
def splitNl : List Char → List (List Char)
  | [] => [[]]
  | c :: cs =>
    let r := splitNl cs
    if c = '\n' then [] :: r
    else
      match r with
      | [] => [[c]]
      | g :: gs => (c :: g) :: gs

/-- Join groups with newline separators; the left inverse of splitNl. -/
def joinNl : List (List Char) → List Char
  | [] => []
  | [g] => g
  | g :: gs => g ++ '\n' :: joinNl gs

/-- Modelled from the spec: the line tokenizer of the external jsdiff
library (the repository imports the diff package, whose source is not in
the tree). Each token is a line together with its trailing newline; the
empty token produced by a final newline is dropped, so the last token of
a newline-terminated text keeps its newline and a text without a final
newline contributes a bare final token. -/
def tokenizeLines (s : List Char) : List (List Char) :=
  let parts := splitNl s
  let body := (parts.dropLast).map (fun p => p ++ ['\n'])
  match parts.getLast? with
  | none => []
  | some l => body ++ (if l = [] then [] else [l])

/-- One token-level edit: keep (token in both sequences), del (token only
in the old sequence), ins (token only in the new sequence). -/
inductive DiffOp (α : Type) where
  | keep (token : α)
  | del (token : α)
  | ins (token : α)
deriving DecidableEq

/-- The token carried by an edit. -/
def DiffOp.token {α : Type} : DiffOp α → α
  | .keep t => t
  | .del t => t
  | .ins t => t

/-- Helper computing the longest-common-subsequence length of a cons cell
against a list, given the function for the tail of the first list; this
nested shape keeps the classic LCS recurrence structurally recursive. -/
def lcsWith {α : Type} [DecidableEq α] (lcsTail : List α → Nat) (a : α) :
    List α → Nat
  | [] => 0
  | b :: bs =>
      if a = b then lcsTail bs + 1
      else max (lcsWith lcsTail a bs) (lcsTail (b :: bs))

/-- Modelled from the spec: length of a longest common subsequence of two
token sequences, the quantity a minimal line diff preserves. -/
def lcsLen {α : Type} [DecidableEq α] : List α → List α → Nat
  | [], _ => 0
  | a :: xs, bs => lcsWith (lcsLen xs) a bs

/-- Helper producing the edit script of a cons cell against a list, given
the diff and LCS functions for the tail of the first list. On an equal
gain the deletion is taken first, matching the removed-before-added
presentation of the library output. -/
def diffWith {α : Type} [DecidableEq α]
    (diffTail : List α → List (DiffOp α)) (lcsTail : List α → Nat)
    (a : α) : List α → List (DiffOp α)
  | [] => .del a :: diffTail []
  | b :: bs =>
      if a = b then .keep a :: diffTail bs
      else if lcsWith lcsTail a bs ≤ lcsTail (b :: bs) then
        .del a :: diffTail (b :: bs)
      else .ins b :: diffWith diffTail lcsTail a bs

/-- Modelled from the spec: a minimal longest-common-subsequence edit
script over whole lines, the algorithm the specification prescribes for
the diff engine (any standard LCS or Myers line diff). -/
def diffSeq {α : Type} [DecidableEq α] : List α → List α → List (DiffOp α)
  | [], ys => ys.map .ins
  | a :: xs, ys => diffWith (diffSeq xs) (lcsLen xs) a ys

/-- One change object of the library output: a value (the concatenation
of a maximal run of equally-tagged tokens) with its added and removed
flags. -/
structure Change where
  value : List Char
  added : Bool
  removed : Bool
deriving DecidableEq

/-- The single-token change corresponding to one edit. -/
def opChange : DiffOp (List Char) → Change
  | .keep t => { value := t, added := false, removed := false }
  | .del t => { value := t, added := false, removed := true }
  | .ins t => { value := t, added := true, removed := false }

/-- Merge the per-token edits into maximal runs of one kind, concatenating
their token values, as the library reports its change objects. -/
def buildChanges : List (DiffOp (List Char)) → List Change
  | [] => []
  | op :: rest =>
    let c := opChange op
    match buildChanges rest with
    | [] => [c]
    | c2 :: cs =>
        if c.added = c2.added ∧ c.removed = c2.removed then
          { value := c.value ++ c2.value, added := c2.added,
            removed := c2.removed } :: cs
        else c :: c2 :: cs

/-- Modelled from the spec: Diff.diffLines of the external jsdiff library,
as used by generateDiff: tokenize both texts into lines, compute a
minimal LCS edit script, and group it into change objects. -/
def diffLinesChanges (oldText newText : List Char) : List Change :=
  buildChanges (diffSeq (tokenizeLines oldText) (tokenizeLines newText))

/-- Block type tags of the DiffBlock interface of the compare route. -/
inductive DiffBlockType where
  | added | removed | unchanged
deriving DecidableEq

/-- Render formats of the compare route. -/
inductive DiffFormat where
  | inline | sideBySide
deriving DecidableEq

/-- DiffBlock from the compare route: absent optional fields are none. -/
structure DiffBlock where
  type : DiffBlockType
  content : List Char
  lineNumber : Nat
  oldLineNumber : Option Nat
  newLineNumber : Option Nat
deriving DecidableEq

/-- The per-change line extraction of generateDiff: split the change value
on newlines and remove the empty last line when present. -/
def changeLines (value : List Char) : List (List Char) :=
  let lines := splitNl value
  if lines.getLast? = some [] then lines.dropLast else lines

/-- The block type a change is rendered as. -/
def changeType (c : Change) : DiffBlockType :=
  if c.added then .added else if c.removed then .removed else .unchanged

/-- The inner for-loops of generateDiff: emit one block per line of the
change, threading the inline counter, the old-line counter and the
new-line counter exactly as the source increments them. -/
def renderLines (ty : DiffBlockType) (format : DiffFormat) :
    List (List Char) → Nat → Nat → Nat →
      List DiffBlock × Nat × Nat × Nat
  | [], lineNumber, oldLn, newLn => ([], lineNumber, oldLn, newLn)
  | line :: rest, lineNumber, oldLn, newLn =>
    match ty with
    | .added =>
      let block : DiffBlock :=
        { type := .added, content := line,
          lineNumber := if format = .inline then lineNumber else newLn,
          oldLineNumber := none, newLineNumber := some newLn }
      let r := renderLines ty format rest
        (if format = .inline then lineNumber + 1 else lineNumber) oldLn
        (newLn + 1)
      (block :: r.1, r.2)
    | .removed =>
      let block : DiffBlock :=
        { type := .removed, content := line,
          lineNumber := if format = .inline then lineNumber else oldLn,
          oldLineNumber := some oldLn, newLineNumber := none }
      let r := renderLines ty format rest
        (if format = .inline then lineNumber + 1 else lineNumber)
        (oldLn + 1) newLn
      (block :: r.1, r.2)
    | .unchanged =>
      let block : DiffBlock :=
        { type := .unchanged, content := line,
          lineNumber := if format = .inline then lineNumber else oldLn,
          oldLineNumber := some oldLn, newLineNumber := some newLn }
      let r := renderLines ty format rest
        (if format = .inline then lineNumber + 1 else lineNumber)
        (oldLn + 1) (newLn + 1)
      (block :: r.1, r.2)

/-- The outer for-loop of generateDiff over the change objects. -/
def renderChanges (format : DiffFormat) :
    List Change → Nat → Nat → Nat → List DiffBlock
  | [], _, _, _ => []
  | c :: cs, lineNumber, oldLn, newLn =>
    let r := renderLines (changeType c) format (changeLines c.value)
      lineNumber oldLn newLn
    r.1 ++ renderChanges format cs r.2.1 r.2.2.1 r.2.2.2

/-- generateDiff from the revision-compare route: diff the two texts and
number the resulting blocks, all three counters starting at one. -/
def generateDiff (oldContent newContent : List Char) (format : DiffFormat) :
    List DiffBlock :=
  renderChanges format (diffLinesChanges oldContent newContent) 1 1 1

/-- Swap the roles of added and removed on a block type. -/
def swapBlockType : DiffBlockType → DiffBlockType
  | .added => .removed
  | .removed => .added
  | .unchanged => .unchanged

/-- Count the blocks of one type in a rendered diff. -/
def countBlocks (blocks : List DiffBlock) (ty : DiffBlockType) : Nat :=
  (blocks.filter (fun b => decide (b.type = ty))).length


/-- Kind of an edit, as the block type it renders to. -/
def opKind {α : Type} : DiffOp α → DiffBlockType
  | .keep _ => .unchanged
  | .del _ => .removed
  | .ins _ => .added

/-- Count of the edits of one kind in an edit script. -/
def countOps {α : Type} (ops : List (DiffOp α)) (ty : DiffBlockType) : Nat :=
  (ops.filter (fun op => decide (opKind op = ty))).length

/-- A wellformed line token: either a newline-free line carrying its
trailing newline, or a nonempty newline-free final line. -/
def IsLineToken (t : List Char) : Prop :=
  (∃ w, '\n' ∉ w ∧ t = w ++ ['\n']) ∨ ('\n' ∉ t ∧ t ≠ [])

/-- Total line count contributed to one block type by a change list. -/
def changesLineCount (cs : List Change) (ty : DiffBlockType) : Nat :=
  (cs.map (fun c => if changeType c = ty then (changeLines c.value).length
    else 0)).sum

/-- Concatenation of the tokens of a change run, as the library
accumulates them into one change value. -/
def tokensJoin : List (List Char) → List Char
  | [] => []
  | [t] => t
  | t :: ts => t ++ tokensJoin ts

/-! ## Theorems -/

/-- Claim C1: for every stage pair absent from the workflow transition
table, validation fails with InvalidTransition regardless of the role
(the structural check runs before the permission check); for a defined
transition, validation succeeds exactly for the roles in its allowedRoles
and fails with Forbidden for every other role. -/
theorem C1_validateTransition_structure_then_permission :
    (∀ (fromStage toStage : WorkflowStage) (role : UserRole),
      (∀ t ∈ WORKFLOW_TRANSITIONS,
          ¬(t.fromStage = fromStage ∧ t.toStage = toStage)) →
        validateTransition fromStage toStage role = .error .InvalidTransition)
    ∧ (∀ (fromStage toStage : WorkflowStage) (role : UserRole),
      ∀ t ∈ WORKFLOW_TRANSITIONS,
          t.fromStage = fromStage → t.toStage = toStage →
            ((role ∈ t.allowedRoles →
                validateTransition fromStage toStage role = .ok ())
              ∧ (role ∉ t.allowedRoles →
                validateTransition fromStage toStage role
                  = .error .Forbidden))) :=
  ⟨by decide, by decide⟩

/-- Witness for C1 at a concrete input: Draft to Idea is undefined, so a
PM is answered with InvalidTransition. -/
theorem C1_witness :
    (∀ t ∈ WORKFLOW_TRANSITIONS,
        ¬(t.fromStage = WorkflowStage.Draft ∧ t.toStage = WorkflowStage.Idea))
      ∧ validateTransition .Draft .Idea .PM = .error .InvalidTransition :=
  ⟨by decide,
   C1_validateTransition_structure_then_permission.1 .Draft .Idea .PM
     (by decide)⟩

/-- Claim C5: a link request whose parent and child coincide is always
rejected as a self link and the state is unchanged, whatever the state
and the acting user. -/
theorem C5_self_link_always_rejected :
    ∀ (db : LinkDB) (a userEmail newId : String) (now : Nat),
      linkPOST db a a userEmail newId now = (.selfLinkRejected, db) := by
  intro db a userEmail newId now
  simp [linkPOST]

/-- Claim C10: the transition route consults only the workflow transition
table; two runs whose permission tables agree on workflowTransitions but
differ arbitrarily in rolePermissions (in particular in the
spec-transition capability) produce identical outcomes and states. -/
theorem C10_transition_ignores_role_permissions :
    ∀ (t1 t2 : PermissionTables),
      t1.workflowTransitions = t2.workflowTransitions →
      ∀ (role : UserRole) (userId : String) (db : SpecDB) (id : String)
        (toStage : WorkflowStage) (now : Nat),
        transitionPOSTIn t1 role userId db id toStage now
          = transitionPOSTIn t2 role userId db id toStage now := by
  intro t1 t2 h role userId db id toStage now
  unfold transitionPOSTIn isValidTransitionIn canTransitionWorkflowIn
  rw [h]

/-- Witness for C10 at a concrete input: the shipped tables versus the
same transition table with every capability list emptied give the same
answer to a QA finishing an InProgress document. -/
theorem C10_witness :
    (DEFAULT_TABLES.workflowTransitions
        = (PermissionTables.mk WORKFLOW_TRANSITIONS (fun _ => [])).workflowTransitions)
      ∧ transitionPOSTIn DEFAULT_TABLES .QA ("u1")
          (SpecDB.mk [⟨"d1", "T", "body", ⟨"T", .InProgress, .epic, none, [], none⟩,
            "u0", 0, "u0", 0, 1⟩] []) ("d1") .Done 5
        = transitionPOSTIn (PermissionTables.mk WORKFLOW_TRANSITIONS (fun _ => []))
            .QA ("u1")
            (SpecDB.mk [⟨"d1", "T", "body", ⟨"T", .InProgress, .epic, none, [], none⟩,
              "u0", 0, "u0", 0, 1⟩] []) ("d1") .Done 5 :=
  ⟨rfl,
   C10_transition_ignores_role_permissions DEFAULT_TABLES
     (PermissionTables.mk WORKFLOW_TRANSITIONS (fun _ => [])) rfl .QA ("u1")
     (SpecDB.mk [⟨"d1", "T", "body", ⟨"T", .InProgress, .epic, none, [], none⟩,
       "u0", 0, "u0", 0, 1⟩] []) ("d1") .Done 5⟩

/-- Splitting never returns an empty group list. -/
theorem splitNl_ne_nil : ∀ (s : List Char), splitNl s ≠ [] := by
  intro s
  induction s with
  | nil => simp [splitNl]
  | cons c cs ih =>
    simp only [splitNl]
    by_cases hc : c = '\n'
    · simp [hc]
    · simp only [hc, if_false]
      cases splitNl cs with
      | nil => simp
      | cons g gs => simp


/-- A final newline contributes exactly one empty trailing group. -/
theorem splitNl_append_newline (xs : List Char) :
    splitNl (xs ++ ['\n']) = splitNl xs ++ [[]] := by
  induction xs with
  | nil => simp [splitNl]
  | cons c cs ih =>
    by_cases hc : c = '\n'
    · simp [List.cons_append, splitNl, hc, ih]
    · simp only [List.cons_append, splitNl, hc, if_false]
      simp only [List.append_eq] at ih ⊢
      rw [ih]
      cases h : splitNl cs with
      | nil => exact absurd h (splitNl_ne_nil cs)
      | cons g gs => simp [h]


/-- Claim C6: the empty trailing line produced by a final newline is
trimmed from a change group before numbering (the lines of a
newline-terminated group are exactly the newline-split of the group
without its final newline), and concretely the diff of the empty text
against the text a newline b consists of exactly two added blocks with
newLineNumber one and two, in either render format. -/
theorem C6_trailing_newline_trimmed :
    (∀ (v : List Char), v.getLast? = some '\n' →
      changeLines v = splitNl v.dropLast)
    ∧ (∀ format, generateDiff ([]) ("a\nb".toList) format =
        [ ⟨.added, "a".toList, 1, none, some 1⟩,
          ⟨.added, "b".toList, 2, none, some 2⟩ ]) := by
  constructor
  · intro v hv
    obtain ⟨xs, rfl⟩ : ∃ xs, v = xs ++ ['\n'] := by
      rcases List.eq_nil_or_concat v with rfl | ⟨xs, x, rfl⟩
      · simp at hv
      · simp only [List.concat_eq_append] at hv ⊢
        rw [List.getLast?_concat] at hv
        exact ⟨xs, by rw [Option.some.inj hv]⟩
    have h1 : splitNl (xs ++ ['\n']) = splitNl xs ++ [[]] :=
      splitNl_append_newline xs
    have h2 : (xs ++ ['\n']).dropLast = xs := by simp
    rw [h2]
    unfold changeLines
    rw [h1]
    simp
  · intro format
    cases format <;> decide

/-- Witness for C6 at a concrete input: the group x newline has the single
line x. -/
theorem C6_witness :
    (("x\n".toList).getLast? = some '\n')
      ∧ changeLines ("x\n".toList) = splitNl (("x\n".toList).dropLast) :=
  ⟨by decide, C6_trailing_newline_trimmed.1 ("x\n".toList) (by decide)⟩

theorem findSpecById_some_id {l : List Spec} {id : String} {s : Spec}
    (h : findSpecById l id = some s) : s._id = id := by
  have h2 := List.find?_some h
  simpa using h2

theorem findSpecById_map_update (l : List Spec) (id : String) (u : Spec)
    (hu : u._id = id) :
    findSpecById (l.map (fun t => if t._id = id then u else t)) id
      = (findSpecById l id).map (fun _ => u) := by
  induction l with
  | nil => rfl
  | cons t ts ih =>
    by_cases ht : t._id = id
    · simp [findSpecById, List.find?_cons, ht, hu]
    · simp only [findSpecById, List.map_cons, List.find?_cons] at ih ⊢
      simp [ht, ih]

theorem findSpecById_append_none {l1 : List Spec} {id : String}
    (l2 : List Spec) (h : findSpecById l1 id = none) :
    findSpecById (l1 ++ l2) id = findSpecById l2 id := by
  induction l1 with
  | nil => rfl
  | cons t ts ih =>
    by_cases ht : t._id = id
    · exact absurd h (by simp [findSpecById, List.find?_cons, ht])
    · have h2 : findSpecById ts id = none := by
        simpa only [findSpecById, List.find?_cons, decide_eq_false ht] using h
      simpa only [findSpecById, List.cons_append, List.find?_cons,
        decide_eq_false ht] using ih h2

theorem putSpec_success (role : UserRole) (userId : String) (db : SpecDB)
    (id content : String) (metadata : SpecMetadata) (revisionId : String)
    (revOk : Bool) (now : Nat) (s2 : Spec) (db2 : SpecDB) (ev : List DbEvent)
    (h : putSpec role userId db id content metadata revisionId revOk now
          = (.ok s2, db2, ev)) :
    ∃ pre, findSpecById db.specs id = some pre ∧ revOk = true ∧
      s2 = { pre with
        content := combineMarkdown metadata content
        metadata := metadata
        title := metadata.title
        updatedBy := userId
        updatedAt := now
        currentVersion := pre.currentVersion + 1 } ∧
      db2 = { specs := db.specs.map (fun t => if t._id = id then s2 else t)
              revisions := db.revisions ++
                [⟨revisionId, pre._id, pre.currentVersion, pre.content,
                  pre.metadata, userId, now⟩] } ∧
      ev = [.revisionInsert pre._id pre.currentVersion, .specUpdate id] := by
  by_cases hperm : hasPermission role .specUpdate
  · cases hfind : findSpecById db.specs id with
    | none => simp [putSpec, hperm, hfind] at h
    | some pre =>
      cases revOk with
      | false => simp [putSpec, hperm, hfind] at h
      | true =>
        refine ⟨pre, rfl, rfl, ?_⟩
        simp only [putSpec, hperm, hfind, Bool.not_true, Bool.not_false,
          if_false, if_true, validateMetadata, createRevision, updateSpec,
          Bool.false_eq_true] at h
        simp only [Prod.mk.injEq, PutResult.ok.injEq] at h
        obtain ⟨hs2, hdb2, hev⟩ := h
        subst hs2 hdb2 hev
        exact ⟨rfl, rfl, rfl⟩
  · simp [putSpec, hperm] at h

theorem putSpec_not_ok_state (role : UserRole) (userId : String)
    (db : SpecDB) (id content : String) (metadata : SpecMetadata)
    (revisionId : String) (revOk : Bool) (now : Nat) (res : PutResult)
    (db2 : SpecDB) (ev : List DbEvent)
    (h : putSpec role userId db id content metadata revisionId revOk now
          = (res, db2, ev))
    (hres : ∀ s, res ≠ .ok s) : db2 = db := by
  by_cases hperm : hasPermission role .specUpdate
  · cases hfind : findSpecById db.specs id with
    | none =>
        simp only [putSpec, hperm, hfind, Bool.not_true, Bool.false_eq_true,
          if_false, Prod.mk.injEq] at h
        exact h.2.1.symm
    | some pre =>
      cases revOk with
      | false =>
          simp only [putSpec, hperm, hfind, Bool.not_true, Bool.not_false,
            Bool.false_eq_true, if_false, if_true, Prod.mk.injEq] at h
          exact h.2.1.symm
      | true =>
          simp only [putSpec, hperm, hfind, Bool.not_true, Bool.not_false,
            if_false, if_true, validateMetadata, createRevision, updateSpec,
            Bool.false_eq_true, Prod.mk.injEq] at h
          exact absurd h.1.symm (hres _)
  · simp only [putSpec, hperm, Bool.not_false, if_true, Prod.mk.injEq] at h
    exact h.2.1.symm

theorem revisionCount_append_same (db db2 : SpecDB) (id : String)
    (r : Revision) (h : db2.revisions = db.revisions ++ [r])
    (hr : r.specId = id) :
    revisionCount db2 id = revisionCount db id + 1 := by
  simp [revisionCount, h, List.filter_append, hr]

theorem putSpec_preserves_inv (role : UserRole) (userId : String)
    (db : SpecDB) (id content : String) (metadata : SpecMetadata)
    (revisionId : String) (revOk : Bool) (now : Nat)
    (hinv : VersionInv db id) :
    VersionInv
      (putSpec role userId db id content metadata revisionId revOk now).2.1
      id := by
  rcases hput : putSpec role userId db id content metadata revisionId revOk now
    with ⟨res, db2, ev⟩
  cases res with
  | ok s2 =>
    obtain ⟨pre, hfind, _, hs2, hdb2, _⟩ :=
      putSpec_success role userId db id content metadata revisionId revOk now
        s2 db2 ev hput
    intro s hs
    have hpreid : pre._id = id := findSpecById_some_id hfind
    have hs2id : s2._id = id := by rw [hs2]; exact hpreid
    have hspecs : db2.specs
        = db.specs.map (fun t => if t._id = id then s2 else t) := by
      rw [hdb2]
    have hrevs : db2.revisions = db.revisions ++
        [⟨revisionId, pre._id, pre.currentVersion, pre.content,
          pre.metadata, userId, now⟩] := by
      rw [hdb2]
    rw [hspecs, findSpecById_map_update db.specs id s2 hs2id, hfind] at hs
    have hss2 : s = s2 := (Option.some.inj hs).symm
    have hcount : revisionCount db2 id = revisionCount db id + 1 :=
      revisionCount_append_same db db2 id _ hrevs hpreid
    have hver : s2.currentVersion = pre.currentVersion + 1 := by rw [hs2]
    rw [hss2, hver, hcount]
    have := hinv pre hfind
    omega
  | forbidden =>
    rw [putSpec_not_ok_state role userId db id content metadata revisionId
      revOk now _ db2 ev hput (by intro s hodd; cases hodd)]
    exact hinv
  | notFound =>
    rw [putSpec_not_ok_state role userId db id content metadata revisionId
      revOk now _ db2 ev hput (by intro s hodd; cases hodd)]
    exact hinv
  | storageFailure =>
    rw [putSpec_not_ok_state role userId db id content metadata revisionId
      revOk now _ db2 ev hput (by intro s hodd; cases hodd)]
    exact hinv
  | internalError =>
    rw [putSpec_not_ok_state role userId db id content metadata revisionId
      revOk now _ db2 ev hput (by intro s hodd; cases hodd)]
    exact hinv

/-- Claim C2: a successful content update stores exactly one new revision,
snapshotting the pre-update document at its pre-update version number,
and advances the live version by exactly one; consequently the version
invariant (currentVersion equals stored revision count plus one) holds
after the update sequence of any freshly created document and is
preserved by every update request. -/
theorem C2_update_versioning_invariant :
    (∀ (role : UserRole) (userId : String) (db : SpecDB)
        (id content : String) (metadata : SpecMetadata)
        (revisionId : String) (revOk : Bool) (now : Nat) (s2 : Spec)
        (db2 : SpecDB) (ev : List DbEvent),
      putSpec role userId db id content metadata revisionId revOk now
          = (.ok s2, db2, ev) →
        ∃ pre, findSpecById db.specs id = some pre ∧
          db2.revisions = db.revisions ++
            [⟨revisionId, pre._id, pre.currentVersion, pre.content,
              pre.metadata, userId, now⟩] ∧
          s2.currentVersion = pre.currentVersion + 1 ∧
          findSpecById db2.specs id = some s2)
    ∧ (∀ (db : SpecDB) (id : String), VersionInv db id →
        ∀ (reqs : List UpdateReq), VersionInv (applyUpdates id db reqs) id)
    ∧ (∀ (db : SpecDB) (newId title content : String) (m : SpecMetadata)
        (createdBy : String) (now : Nat),
        findSpecById db.specs newId = none →
        revisionCount db newId = 0 →
        ∀ (reqs : List UpdateReq),
          VersionInv (applyUpdates newId
            (createSpec db newId title content m createdBy now).2 reqs)
            newId) := by
  have part1 : ∀ (role : UserRole) (userId : String) (db : SpecDB)
      (id content : String) (metadata : SpecMetadata)
      (revisionId : String) (revOk : Bool) (now : Nat) (s2 : Spec)
      (db2 : SpecDB) (ev : List DbEvent),
      putSpec role userId db id content metadata revisionId revOk now
          = (.ok s2, db2, ev) →
        ∃ pre, findSpecById db.specs id = some pre ∧
          db2.revisions = db.revisions ++
            [⟨revisionId, pre._id, pre.currentVersion, pre.content,
              pre.metadata, userId, now⟩] ∧
          s2.currentVersion = pre.currentVersion + 1 ∧
          findSpecById db2.specs id = some s2 := by
    intro role userId db id content metadata revisionId revOk now s2 db2 ev h
    obtain ⟨pre, hfind, _, hs2, hdb2, _⟩ :=
      putSpec_success role userId db id content metadata revisionId revOk now
        s2 db2 ev h
    have hpreid : pre._id = id := findSpecById_some_id hfind
    have hs2id : s2._id = id := by rw [hs2]; exact hpreid
    have hspecs : db2.specs
        = db.specs.map (fun t => if t._id = id then s2 else t) := by
      rw [hdb2]
    refine ⟨pre, hfind, by rw [hdb2], by rw [hs2], ?_⟩
    rw [hspecs, findSpecById_map_update db.specs id s2 hs2id, hfind]
    rfl
  have part2 : ∀ (db : SpecDB) (id : String), VersionInv db id →
      ∀ (reqs : List UpdateReq), VersionInv (applyUpdates id db reqs) id := by
    intro db id hinv reqs
    induction reqs generalizing db with
    | nil => simpa [applyUpdates] using hinv
    | cons r rs ih =>
      simp only [applyUpdates]
      exact ih _ (putSpec_preserves_inv r.role r.userId db id r.content
        r.metadata r.revisionId r.revisionWriteOk r.now hinv)
  refine ⟨part1, part2, ?_⟩
  intro db newId title content m createdBy now hnone hcount reqs
  apply part2
  intro s hs
  have hspecs : (createSpec db newId title content m createdBy now).2.specs
      = db.specs ++ [(createSpec db newId title content m createdBy now).1] :=
    rfl
  rw [hspecs, findSpecById_append_none _ hnone] at hs
  have hs2 : s = (createSpec db newId title content m createdBy now).1 := by
    simpa [findSpecById, createSpec, List.find?] using hs.symm
  have hrevs : revisionCount
      (createSpec db newId title content m createdBy now).2 newId
      = revisionCount db newId := rfl
  rw [hs2, hrevs, hcount]
  rfl

/-- Witness for C2 at a concrete input: a fresh document in an empty
store satisfies the version invariant after one update request. -/
theorem C2_witness :
    (findSpecById (SpecDB.mk [] []).specs ("d1") = none)
    ∧ (revisionCount (SpecDB.mk [] []) ("d1") = 0)
    ∧ VersionInv
        (applyUpdates ("d1")
          (createSpec (SpecDB.mk [] [])
            ("d1") ("T") ("c0") ⟨"T", .Idea, .epic, none, [], none⟩
            ("u") 0).2
          [⟨.PM, "u", "c1", ⟨"T", .Draft, .epic, none, [], none⟩, "r1",
            true, 3⟩])
        ("d1") :=
  ⟨rfl, rfl,
   C2_update_versioning_invariant.2.2 (SpecDB.mk [] []) ("d1") ("T") ("c0")
     ⟨"T", .Idea, .epic, none, [], none⟩ ("u") 0 rfl rfl
     [⟨.PM, "u", "c1", ⟨"T", .Draft, .epic, none, [], none⟩, "r1", true, 3⟩]⟩

/-- Claim C4: when the revision snapshot write fails, the update request
answers with an error, the database is unchanged and no document
mutation happens (fail closed); moreover in every execution in which the
document write occurs, the event trace is exactly the completed snapshot
insert of the pre-update version followed by the document update, in
that order. -/
theorem C4_snapshot_fail_closed :
    (∀ (role : UserRole) (userId : String) (db : SpecDB)
        (id content : String) (metadata : SpecMetadata)
        (revisionId : String) (now : Nat),
      (putSpec role userId db id content metadata revisionId false now).2.1
          = db
      ∧ ∀ s,
        (putSpec role userId db id content metadata revisionId false now).1
          ≠ .ok s)
    ∧ (∀ (role : UserRole) (userId : String) (db : SpecDB)
        (id content : String) (metadata : SpecMetadata)
        (revisionId : String) (revOk : Bool) (now : Nat),
        DbEvent.specUpdate id ∈
          (putSpec role userId db id content metadata revisionId revOk
            now).2.2 →
        ∃ pre, findSpecById db.specs id = some pre ∧
          (putSpec role userId db id content metadata revisionId revOk
            now).2.2
            = [.revisionInsert pre._id pre.currentVersion,
               .specUpdate id]) := by
  constructor
  · intro role userId db id content metadata revisionId now
    by_cases hperm : hasPermission role .specUpdate
    · cases hfind : findSpecById db.specs id with
      | none => simp [putSpec, hperm, hfind]
      | some pre => simp [putSpec, hperm, hfind]
    · simp [putSpec, hperm]
  · intro role userId db id content metadata revisionId revOk now hmem
    by_cases hperm : hasPermission role .specUpdate
    · cases hfind : findSpecById db.specs id with
      | none => simp [putSpec, hperm, hfind] at hmem
      | some pre =>
        cases revOk with
        | false => simp [putSpec, hperm, hfind] at hmem
        | true =>
          refine ⟨pre, rfl, ?_⟩
          simp [putSpec, hperm, hfind, validateMetadata, createRevision,
            updateSpec]
    · simp [putSpec, hperm] at hmem

/-- Witness for C4 at a concrete input: one successful update of a
one-document store produces the snapshot-then-update trace. -/
theorem C4_witness :
    (DbEvent.specUpdate ("d1") ∈
      (putSpec .PM ("u")
        (SpecDB.mk [⟨"d1", "T", "c0", ⟨"T", .Idea, .epic, none, [], none⟩,
          "u", 0, "u", 0, 1⟩] [])
        ("d1") ("c1") ⟨"T", .Draft, .epic, none, [], none⟩ ("r1") true
        3).2.2)
    ∧ ∃ pre,
        findSpecById
          (SpecDB.mk [⟨"d1", "T", "c0", ⟨"T", .Idea, .epic, none, [], none⟩,
            "u", 0, "u", 0, 1⟩] []).specs ("d1") = some pre ∧
        (putSpec .PM ("u")
          (SpecDB.mk [⟨"d1", "T", "c0", ⟨"T", .Idea, .epic, none, [], none⟩,
            "u", 0, "u", 0, 1⟩] [])
          ("d1") ("c1") ⟨"T", .Draft, .epic, none, [], none⟩ ("r1") true
          3).2.2
          = [.revisionInsert pre._id pre.currentVersion,
             .specUpdate ("d1")] :=
  ⟨by decide,
   C4_snapshot_fail_closed.2 .PM ("u")
     (SpecDB.mk [⟨"d1", "T", "c0", ⟨"T", .Idea, .epic, none, [], none⟩,
       "u", 0, "u", 0, 1⟩] [])
     ("d1") ("c1") ⟨"T", .Draft, .epic, none, [], none⟩ ("r1") true 3
     (by decide)⟩

/-- Claim C9: a pure stage transition creates no revision, and touches
only the stage field of the metadata, the last-modifier and the
updated-at timestamp: every other field of every document, the whole of
every other document, and the revision log are unchanged, whatever the
outcome of the route. -/
theorem C9_transition_pure_frame :
    ∀ (role : UserRole) (userId : String) (db : SpecDB) (id : String)
      (toStage : WorkflowStage) (now : Nat),
      ((transitionPOST role userId db id toStage now).2.revisions
          = db.revisions)
      ∧ ((db.specs.map (fun s => s._id)).Nodup →
          List.Forall₂ (fun s s2 =>
            s2._id = s._id ∧ s2.content = s.content ∧ s2.title = s.title ∧
            s2.currentVersion = s.currentVersion ∧
            s2.createdBy = s.createdBy ∧ s2.createdAt = s.createdAt ∧
            s2.metadata.title = s.metadata.title ∧
            s2.metadata.type = s.metadata.type ∧
            s2.metadata.assignee = s.metadata.assignee ∧
            s2.metadata.tags = s.metadata.tags ∧
            s2.metadata.parentId = s.metadata.parentId ∧
            (s._id ≠ id → s2 = s) ∧
            (s2.metadata.status = s.metadata.status ∨
              s2.metadata.status = toStage))
            db.specs (transitionPOST role userId db id toStage now).2.specs) := by
  intro role userId db id toStage now
  have hrefl : ∀ (l : List Spec),
      List.Forall₂ (fun s s2 =>
        s2._id = s._id ∧ s2.content = s.content ∧ s2.title = s.title ∧
        s2.currentVersion = s.currentVersion ∧
        s2.createdBy = s.createdBy ∧ s2.createdAt = s.createdAt ∧
        s2.metadata.title = s.metadata.title ∧
        s2.metadata.type = s.metadata.type ∧
        s2.metadata.assignee = s.metadata.assignee ∧
        s2.metadata.tags = s.metadata.tags ∧
        s2.metadata.parentId = s.metadata.parentId ∧
        (s._id ≠ id → s2 = s) ∧
        (s2.metadata.status = s.metadata.status ∨
          s2.metadata.status = toStage)) l l := by
    intro l
    exact List.forall₂_same.mpr (fun s _ =>
      ⟨rfl, rfl, rfl, rfl, rfl, rfl, rfl, rfl, rfl, rfl, rfl,
        fun _ => rfl, Or.inl rfl⟩)
  rcases hroute : transitionPOST role userId db id toStage now with ⟨res, db2⟩
  unfold transitionPOST transitionPOSTIn at hroute
  cases hfind : findSpecById db.specs id with
  | none =>
    rw [hfind] at hroute
    have hdb2 : db2 = db := (Prod.mk.injEq _ _ _ _ ▸ hroute).2.symm
    refine ⟨by rw [hdb2], fun _ => ?_⟩
    rw [hdb2]
    exact hrefl db.specs
  | some spec =>
    rw [hfind] at hroute
    by_cases hvalid :
        isValidTransitionIn DEFAULT_TABLES spec.metadata.status toStage
    · by_cases hcan :
          canTransitionWorkflowIn DEFAULT_TABLES role spec.metadata.status
            toStage
      · simp only [hvalid, hcan, Bool.not_true, Bool.false_eq_true, if_false,
          transitionStage, hfind, Prod.mk.injEq] at hroute
        have hdb2 : db2 = { db with specs := db.specs.map (fun t => if t._id = id then { spec with metadata := { spec.metadata with status := toStage }, updatedBy := userId, updatedAt := now } else t) } := hroute.2.symm
        refine ⟨by rw [hdb2], fun hnodup => ?_⟩
        rw [hdb2]
        rw [List.forall₂_map_right_iff]
        refine List.forall₂_same.mpr (fun s hsmem => ?_)
        by_cases hsid : s._id = id
        · have hsspec : s = spec := by
            have hspecmem : spec ∈ db.specs :=
              List.mem_of_find?_eq_some hfind
            have hspecid : spec._id = id := findSpecById_some_id hfind
            exact List.inj_on_of_nodup_map hnodup hsmem hspecmem
              (by rw [hsid, hspecid])
          subst hsspec
          rw [if_pos hsid]
          exact ⟨rfl, rfl, rfl, rfl, rfl, rfl, rfl, rfl, rfl, rfl, rfl,
            fun hne => absurd hsid hne, Or.inr rfl⟩
        · rw [if_neg hsid]
          exact ⟨rfl, rfl, rfl, rfl, rfl, rfl, rfl, rfl, rfl, rfl, rfl,
            fun _ => rfl, Or.inl rfl⟩
      · simp only [hvalid, hcan, Bool.not_true, Bool.not_false,
          Bool.false_eq_true, if_false, if_true, Prod.mk.injEq] at hroute
        have hdb2 : db2 = db := hroute.2.symm
        refine ⟨by rw [hdb2], fun _ => ?_⟩
        rw [hdb2]
        exact hrefl db.specs
    · simp only [hvalid, Bool.not_false, if_true, Prod.mk.injEq] at hroute
      have hdb2 : db2 = db := hroute.2.symm
      refine ⟨by rw [hdb2], fun _ => ?_⟩
      rw [hdb2]
      exact hrefl db.specs

/-- Witness for C9 at a concrete input: a one-document store with a
distinct id satisfies the frame relation after a successful transition. -/
theorem C9_witness :
    (((SpecDB.mk [⟨"d1", "T", "c0", ⟨"T", .Idea, .epic, none, [], none⟩,
        "u", 0, "u", 0, 1⟩] []).specs.map (fun s => s._id)).Nodup)
    ∧ List.Forall₂ (fun s s2 =>
        s2._id = s._id ∧ s2.content = s.content ∧ s2.title = s.title ∧
        s2.currentVersion = s.currentVersion ∧
        s2.createdBy = s.createdBy ∧ s2.createdAt = s.createdAt ∧
        s2.metadata.title = s.metadata.title ∧
        s2.metadata.type = s.metadata.type ∧
        s2.metadata.assignee = s.metadata.assignee ∧
        s2.metadata.tags = s.metadata.tags ∧
        s2.metadata.parentId = s.metadata.parentId ∧
        (s._id ≠ "d1" → s2 = s) ∧
        (s2.metadata.status = s.metadata.status ∨
          s2.metadata.status = WorkflowStage.Draft))
        (SpecDB.mk [⟨"d1", "T", "c0", ⟨"T", .Idea, .epic, none, [], none⟩,
          "u", 0, "u", 0, 1⟩] []).specs
        (transitionPOST .PM ("u")
          (SpecDB.mk [⟨"d1", "T", "c0", ⟨"T", .Idea, .epic, none, [], none⟩,
            "u", 0, "u", 0, 1⟩] [])
          ("d1") .Draft 4).2.specs :=
  ⟨by decide,
   (C9_transition_pure_frame .PM ("u")
     (SpecDB.mk [⟨"d1", "T", "c0", ⟨"T", .Idea, .epic, none, [], none⟩,
       "u", 0, "u", 0, 1⟩] [])
     ("d1") .Draft 4).2 (by decide)⟩

theorem joinNl_splitNl : ∀ (s : List Char), joinNl (splitNl s) = s := by
  intro s
  induction s with
  | nil => rfl
  | cons c cs ih =>
    by_cases hc : c = '\n'
    · subst hc
      simp only [splitNl, if_pos rfl]
      cases h : splitNl cs with
      | nil => exact absurd h (splitNl_ne_nil cs)
      | cons g gs =>
        rw [h] at ih
        simp only [joinNl]
        cases gs with
        | nil =>
          simp only [joinNl] at ih ⊢
          rw [List.nil_append, ih]
        | cons g2 gs2 =>
          simp only [joinNl] at ih ⊢
          rw [List.nil_append, ih]
    · simp only [splitNl, if_neg hc]
      cases h : splitNl cs with
      | nil => exact absurd h (splitNl_ne_nil cs)
      | cons g gs =>
        rw [h] at ih
        cases gs with
        | nil => simp only [joinNl] at ih ⊢; rw [ih]
        | cons g2 gs2 =>
          simp only [joinNl] at ih ⊢
          rw [List.cons_append, ih]

theorem tokensJoin_cons (x : List Char) (rest : List (List Char))
    (h : rest ≠ []) : tokensJoin (x :: rest) = x ++ tokensJoin rest := by
  cases rest with
  | nil => exact absurd rfl h
  | cons y ys => rfl

theorem tokensJoin_body : ∀ (ps : List (List Char)),
    tokensJoin (ps.map (fun p => p ++ ['\n'])) = joinNl (ps ++ [[]]) := by
  intro ps
  induction ps with
  | nil => rfl
  | cons p ps ih =>
    cases ps with
    | nil => rfl
    | cons q qs =>
      rw [List.map_cons,
        tokensJoin_cons _ _ (by simp), ih]
      simp only [List.cons_append, joinNl]
      cases hql : (q :: qs) ++ [[]] with
      | nil => simp at hql
      | cons a as =>
        simp [joinNl, List.append_assoc]

theorem tokensJoin_body_last : ∀ (ps : List (List Char)) (l : List Char),
    l ≠ [] →
    tokensJoin (ps.map (fun p => p ++ ['\n']) ++ [l]) = joinNl (ps ++ [l]) := by
  intro ps
  induction ps with
  | nil => intro l _; rfl
  | cons p ps ih =>
    intro l hl
    rw [List.map_cons, List.cons_append,
      tokensJoin_cons _ _ (by simp), ih l hl]
    simp only [List.cons_append, joinNl]
    cases hpl : ps ++ [l] with
    | nil => simp at hpl
    | cons a as => simp [joinNl, List.append_assoc]

theorem tokensJoin_tokenizeLines (s : List Char) :
    tokensJoin (tokenizeLines s) = s := by
  rcases List.eq_nil_or_concat (splitNl s) with hnil | ⟨ps, l, hsp⟩
  · exact absurd hnil (splitNl_ne_nil s)
  · simp only [List.concat_eq_append] at hsp
    have hj : joinNl (ps ++ [l]) = s := by rw [← hsp]; exact joinNl_splitNl s
    unfold tokenizeLines
    rw [hsp]
    dsimp only
    rw [List.dropLast_concat, List.getLast?_concat]
    by_cases hl : l = []
    · subst hl
      simp only [if_true, reduceIte, List.append_nil]
      rw [tokensJoin_body, hj]
    · simp only [if_neg hl]
      rw [tokensJoin_body_last ps l hl, hj]

theorem diffSeq_cons_cons {α : Type} [DecidableEq α] (a : α) (xs : List α)
    (b : α) (bs : List α) :
    diffSeq (a :: xs) (b :: bs)
      = if a = b then .keep a :: diffSeq xs bs
        else if lcsLen (a :: xs) bs ≤ lcsLen xs (b :: bs) then
          .del a :: diffSeq xs (b :: bs)
        else .ins b :: diffSeq (a :: xs) bs := rfl

theorem diffSeq_self {α : Type} [DecidableEq α] :
    ∀ (xs : List α), diffSeq xs xs = xs.map .keep := by
  intro xs
  induction xs with
  | nil => rfl
  | cons a xs ih =>
    rw [diffSeq_cons_cons, if_pos rfl, ih, List.map_cons]

theorem buildChanges_cons (op : DiffOp (List Char))
    (rest : List (DiffOp (List Char))) :
    buildChanges (op :: rest)
      = match buildChanges rest with
        | [] => [opChange op]
        | c2 :: cs =>
            if (opChange op).added = c2.added ∧
                (opChange op).removed = c2.removed then
              { value := (opChange op).value ++ c2.value, added := c2.added,
                removed := c2.removed } :: cs
            else opChange op :: c2 :: cs := rfl

theorem buildChanges_keeps : ∀ (ts : List (List Char)), ts ≠ [] →
    buildChanges (ts.map .keep)
      = [⟨tokensJoin ts, false, false⟩] := by
  intro ts
  induction ts with
  | nil => intro h; exact absurd rfl h
  | cons t ts ih =>
    intro _
    cases ts with
    | nil => rfl
    | cons t2 ts2 =>
      rw [List.map_cons, tokensJoin_cons _ _ (by simp), buildChanges_cons,
        ih (by simp)]
      simp [opChange]

theorem tokenizeLines_nil_imp (s : List Char) (h : tokenizeLines s = []) :
    s = [] := by
  cases s with
  | nil => rfl
  | cons c cs =>
    exfalso
    rcases List.eq_nil_or_concat (splitNl (c :: cs)) with hnil | ⟨ps, l, hsp⟩
    · exact absurd hnil (splitNl_ne_nil _)
    · simp only [List.concat_eq_append] at hsp
      unfold tokenizeLines at h
      rw [hsp] at h
      dsimp only at h
      rw [List.dropLast_concat, List.getLast?_concat] at h
      by_cases hl : l = []
      · subst hl
        simp only [if_true, reduceIte, List.append_nil] at h
        have hps : ps = [] := by
          cases ps with
          | nil => rfl
          | cons p ps2 => simp at h
        subst hps
        have : joinNl (splitNl (c :: cs)) = c :: cs := joinNl_splitNl _
        rw [hsp] at this
        simp [joinNl] at this
      · simp only [if_neg hl] at h
        simp at h

theorem renderLines_unchanged (format : DiffFormat) :
    ∀ (lines : List (List Char)) (ln k : Nat),
      (format = .inline → ln = k) →
      renderLines .unchanged format lines ln k k
        = ((List.enumFrom k lines).map
            (fun pr => ⟨.unchanged, pr.2, pr.1, some pr.1, some pr.1⟩),
           (if format = .inline then k + lines.length else ln),
           k + lines.length, k + lines.length) := by
  cases format with
  | inline =>
    intro lines
    induction lines with
    | nil =>
      intro ln k h
      rw [h rfl]
      simp [renderLines, List.enumFrom]
    | cons line rest ih =>
      intro ln k h
      rw [h rfl]
      simp only [renderLines, eq_self_iff_true, if_true, List.enumFrom,
        List.map_cons, List.length_cons]
      rw [ih (k + 1) (k + 1) (fun _ => rfl)]
      simp only [Prod.mk.injEq, List.cons.injEq, eq_self_iff_true, if_true,
        true_and, and_true]
      omega
  | sideBySide =>
    intro lines
    induction lines with
    | nil =>
      intro ln k _
      have hne : DiffFormat.sideBySide ≠ DiffFormat.inline := by
        intro h; cases h
      simp [renderLines, List.enumFrom, if_neg hne]
    | cons line rest ih =>
      intro ln k _
      have hne : DiffFormat.sideBySide ≠ DiffFormat.inline := by
        intro h; cases h
      simp only [renderLines, if_neg hne, List.enumFrom, List.map_cons,
        List.length_cons]
      rw [ih ln (k + 1) (by intro hodd; cases hodd)]
      simp only [Prod.mk.injEq, List.cons.injEq, if_neg hne, true_and,
        and_true]
      omega

/-- Claim C7: diffing a text against itself yields only unchanged blocks,
one per line of the text, with equal old and new line numbers (both equal
to the position of the line, counting from one), in either format. -/
theorem C7_diff_identity_unchanged :
    ∀ (X : List Char) (format : DiffFormat),
      generateDiff X X format
        = (List.enumFrom 1 (changeLines X)).map
            (fun pr => ⟨.unchanged, pr.2, pr.1, some pr.1, some pr.1⟩) := by
  intro X format
  cases htok : tokenizeLines X with
  | nil =>
    have hX : X = [] := tokenizeLines_nil_imp X htok
    subst hX
    cases format <;> rfl
  | cons t ts =>
    have hjoin : tokensJoin (t :: ts) = X := by
      rw [← htok]; exact tokensJoin_tokenizeLines X
    unfold generateDiff diffLinesChanges
    rw [htok, diffSeq_self, buildChanges_keeps (t :: ts) (by simp), hjoin]
    simp only [renderChanges, changeType, Bool.false_eq_true, if_false]
    rw [renderLines_unchanged format (changeLines X) 1 1 (fun _ => rfl)]
    simp [renderChanges]

theorem lcsLen_nil_right {α : Type} [DecidableEq α] :
    ∀ (xs : List α), lcsLen xs [] = 0 := by
  intro xs; cases xs <;> rfl

theorem lcsLen_cons_cons {α : Type} [DecidableEq α] (a : α) (xs : List α)
    (b : α) (ys : List α) :
    lcsLen (a :: xs) (b :: ys)
      = if a = b then lcsLen xs ys + 1
        else max (lcsLen (a :: xs) ys) (lcsLen xs (b :: ys)) := rfl

theorem lcsLen_comm {α : Type} [DecidableEq α] :
    ∀ (xs ys : List α), lcsLen xs ys = lcsLen ys xs := by
  intro xs
  induction xs with
  | nil => intro ys; rw [lcsLen_nil_right]; rfl
  | cons a xs ihx =>
    intro ys
    induction ys with
    | nil => rw [lcsLen_nil_right]; rfl
    | cons b ys ihy =>
      rw [lcsLen_cons_cons, lcsLen_cons_cons]
      by_cases hab : a = b
      · subst hab
        rw [if_pos rfl, if_pos rfl, ihx ys]
      · rw [if_neg hab, if_neg (fun h => hab h.symm), ihy, ihx (b :: ys),
          Nat.max_comm]

theorem countOps_nil {α : Type} (ty : DiffBlockType) :
    countOps ([] : List (DiffOp α)) ty = 0 := rfl

theorem countOps_cons {α : Type} (op : DiffOp α) (ops : List (DiffOp α))
    (ty : DiffBlockType) :
    countOps (op :: ops) ty
      = (if opKind op = ty then 1 else 0) + countOps ops ty := by
  by_cases h : opKind op = ty
  · simp [countOps, List.filter_cons, h, Nat.add_comm]
  · simp [countOps, List.filter_cons, h]

theorem countOps_map_ins {α : Type} (ys : List α) (ty : DiffBlockType) :
    countOps (ys.map .ins) ty = if DiffBlockType.added = ty then
      ys.length else 0 := by
  induction ys with
  | nil => by_cases h : DiffBlockType.added = ty <;> simp [countOps_nil, h]
  | cons y ys ih =>
    rw [List.map_cons, countOps_cons, ih]
    by_cases h : DiffBlockType.added = ty
    · simp [opKind, h]
      omega
    · simp [opKind, h]

theorem diffSeq_nil_cons {α : Type} [DecidableEq α] (a : α) (xs : List α) :
    diffSeq (a :: xs) ([] : List α) = .del a :: diffSeq xs [] := rfl

theorem countOps_keep_diffSeq {α : Type} [DecidableEq α] :
    ∀ (xs ys : List α), countOps (diffSeq xs ys) .unchanged = lcsLen xs ys := by
  intro xs
  induction xs with
  | nil =>
    intro ys
    show countOps (ys.map .ins) .unchanged = 0
    rw [countOps_map_ins]
    simp
  | cons a xs ihx =>
    intro ys
    induction ys with
    | nil =>
      rw [diffSeq_nil_cons, countOps_cons, lcsLen_nil_right]
      have := ihx []
      rw [lcsLen_nil_right] at this
      simp [opKind, this]
    | cons b ys ihy =>
      rw [diffSeq_cons_cons, lcsLen_cons_cons]
      by_cases hab : a = b
      · rw [if_pos hab, if_pos hab, countOps_cons]
        simp [opKind, ihx ys]
        omega
      · rw [if_neg hab, if_neg hab]
        by_cases hle : lcsLen (a :: xs) ys ≤ lcsLen xs (b :: ys)
        · rw [if_pos hle, countOps_cons]
          simp [opKind, ihx (b :: ys), Nat.max_eq_right hle]
        · rw [if_neg hle, countOps_cons]
          have hgt : lcsLen xs (b :: ys) ≤ lcsLen (a :: xs) ys :=
            le_of_not_le hle
          simp [opKind, ihy, Nat.max_eq_left hgt]

theorem countOps_del_diffSeq {α : Type} [DecidableEq α] :
    ∀ (xs ys : List α),
      countOps (diffSeq xs ys) .removed + lcsLen xs ys = xs.length := by
  intro xs
  induction xs with
  | nil =>
    intro ys
    show countOps (ys.map .ins) .removed + lcsLen [] ys = 0
    rw [countOps_map_ins]
    simp [lcsLen]
  | cons a xs ihx =>
    intro ys
    induction ys with
    | nil =>
      rw [diffSeq_nil_cons, countOps_cons, lcsLen_nil_right]
      have := ihx []
      rw [lcsLen_nil_right] at this
      simp [opKind] at this ⊢
      omega
    | cons b ys ihy =>
      rw [diffSeq_cons_cons, lcsLen_cons_cons]
      by_cases hab : a = b
      · rw [if_pos hab, if_pos hab, countOps_cons]
        have := ihx ys
        simp [opKind] at this ⊢
        omega
      · rw [if_neg hab, if_neg hab]
        by_cases hle : lcsLen (a :: xs) ys ≤ lcsLen xs (b :: ys)
        · rw [if_pos hle, countOps_cons, Nat.max_eq_right hle]
          have := ihx (b :: ys)
          simp [opKind] at this ⊢
          omega
        · rw [if_neg hle, countOps_cons]
          have hgt : lcsLen xs (b :: ys) ≤ lcsLen (a :: xs) ys :=
            le_of_not_le hle
          rw [Nat.max_eq_left hgt]
          simp [opKind] at ihy ⊢
          omega

theorem countOps_ins_diffSeq {α : Type} [DecidableEq α] :
    ∀ (xs ys : List α),
      countOps (diffSeq xs ys) .added + lcsLen xs ys = ys.length := by
  intro xs
  induction xs with
  | nil =>
    intro ys
    show countOps (ys.map .ins) .added + lcsLen [] ys = ys.length
    rw [countOps_map_ins]
    simp [lcsLen]
  | cons a xs ihx =>
    intro ys
    induction ys with
    | nil =>
      rw [diffSeq_nil_cons, countOps_cons, lcsLen_nil_right]
      have := ihx []
      rw [lcsLen_nil_right] at this
      simp [opKind] at this ⊢
      omega
    | cons b ys ihy =>
      rw [diffSeq_cons_cons, lcsLen_cons_cons]
      by_cases hab : a = b
      · rw [if_pos hab, if_pos hab, countOps_cons]
        have := ihx ys
        simp [opKind] at this ⊢
        omega
      · rw [if_neg hab, if_neg hab]
        by_cases hle : lcsLen (a :: xs) ys ≤ lcsLen xs (b :: ys)
        · rw [if_pos hle, countOps_cons, Nat.max_eq_right hle]
          have := ihx (b :: ys)
          simp [opKind] at this ⊢
          omega
        · rw [if_neg hle, countOps_cons]
          have hgt : lcsLen xs (b :: ys) ≤ lcsLen (a :: xs) ys :=
            le_of_not_le hle
          rw [Nat.max_eq_left hgt]
          simp [opKind] at ihy ⊢
          omega

theorem splitNl_nlfree : ∀ (w : List Char), '\n' ∉ w → splitNl w = [w] := by
  intro w
  induction w with
  | nil => intro _; rfl
  | cons c w ih =>
    intro hw
    have hc : c ≠ '\n' := fun h => hw (by simp [h])
    have hwtail : '\n' ∉ w := fun h => hw (List.mem_cons_of_mem _ h)
    simp only [splitNl, if_neg hc, ih hwtail]

theorem splitNl_append_nlfree : ∀ (w v : List Char), '\n' ∉ w →
    splitNl (w ++ '\n' :: v) = w :: splitNl v := by
  intro w
  induction w with
  | nil =>
    intro v _
    simp [splitNl]
  | cons c w ih =>
    intro v hw
    have hc : c ≠ '\n' := fun h => hw (by simp [h])
    have hwtail : '\n' ∉ w := fun h => hw (List.mem_cons_of_mem _ h)
    simp only [List.cons_append, splitNl, if_neg hc, List.append_eq,
      ih v hwtail]

theorem changeLines_newline (v : List Char) (hv : v.getLast? = some '\n') :
    changeLines v = splitNl v.dropLast := by
  obtain ⟨xs, rfl⟩ : ∃ xs, v = xs ++ ['\n'] := by
    rcases List.eq_nil_or_concat v with rfl | ⟨xs, x, rfl⟩
    · simp at hv
    · simp only [List.concat_eq_append] at hv ⊢
      rw [List.getLast?_concat] at hv
      exact ⟨xs, by rw [Option.some.inj hv]⟩
  have h1 : splitNl (xs ++ ['\n']) = splitNl xs ++ [[]] :=
    splitNl_append_newline xs
  have h2 : (xs ++ ['\n']).dropLast = xs := by simp
  rw [h2]
  unfold changeLines
  rw [h1]
  simp

theorem changeLines_token (t : List Char) (ht : IsLineToken t) :
    ∃ w, changeLines t = [w] := by
  rcases ht with ⟨w, hw, rfl⟩ | ⟨hnl, hne⟩
  · refine ⟨w, ?_⟩
    rw [changeLines_newline (w ++ ['\n']) (by rw [List.getLast?_concat])]
    rw [show (w ++ ['\n']).dropLast = w by simp, splitNl_nlfree w hw]
  · refine ⟨t, ?_⟩
    unfold changeLines
    rw [splitNl_nlfree t hnl]
    have h0 : ([t].getLast? = some ([] : List Char)) = False := by
      simp [hne]
    simp [h0]
    exact hne

theorem changeLines_token_append (w v : List Char) (hw : '\n' ∉ w) :
    changeLines ((w ++ ['\n']) ++ v) = w :: changeLines v := by
  have hassoc : (w ++ ['\n']) ++ v = w ++ '\n' :: v := by simp
  rw [hassoc]
  unfold changeLines
  rw [splitNl_append_nlfree w v hw]
  cases h : splitNl v with
  | nil => exact absurd h (splitNl_ne_nil v)
  | cons g gs =>
    by_cases hlast : (g :: gs).getLast? = some ([] : List Char)
    · rw [if_pos (by rw [List.getLast?_cons_cons]; exact hlast),
        if_pos hlast]
      simp [List.dropLast]
    · rw [if_neg (by rw [List.getLast?_cons_cons]; exact hlast),
        if_neg hlast]

theorem splitNl_mem_nlfree : ∀ (s : List Char) (g : List Char),
    g ∈ splitNl s → '\n' ∉ g := by
  intro s
  induction s with
  | nil =>
    intro g hg
    simp only [splitNl, List.mem_singleton] at hg
    simp [hg]
  | cons c cs ih =>
    intro g hg
    by_cases hc : c = '\n'
    · simp only [splitNl, if_pos hc] at hg
      rcases List.mem_cons.mp hg with rfl | hg2
      · simp
      · exact ih g hg2
    · simp only [splitNl, if_neg hc] at hg
      cases h : splitNl cs with
      | nil => exact absurd h (splitNl_ne_nil cs)
      | cons g0 gs =>
        rw [h] at hg
        rcases List.mem_cons.mp hg with rfl | hg2
        · intro hmem
          rcases List.mem_cons.mp hmem with h1 | h2
          · exact hc h1.symm
          · exact ih g0 (h ▸ List.mem_cons_self g0 gs) h2
        · exact ih g (h ▸ List.mem_cons_of_mem g0 hg2)

theorem tokenizeLines_isLineToken (s : List Char) :
    ∀ t ∈ tokenizeLines s, IsLineToken t := by
  rcases List.eq_nil_or_concat (splitNl s) with hnil | ⟨ps, l, hsp⟩
  · exact absurd hnil (splitNl_ne_nil s)
  · simp only [List.concat_eq_append] at hsp
    intro t ht
    unfold tokenizeLines at ht
    rw [hsp] at ht
    dsimp only at ht
    rw [List.dropLast_concat, List.getLast?_concat] at ht
    rcases List.mem_append.mp ht with hbody | htail
    · obtain ⟨p, hp, rfl⟩ := List.mem_map.mp hbody
      exact Or.inl ⟨p, splitNl_mem_nlfree s p
        (hsp ▸ List.mem_append_left [l] hp), rfl⟩
    · by_cases hl : l = []
      · simp [hl] at htail
      · simp only [if_neg hl, List.mem_singleton] at htail
        subst htail
        exact Or.inr ⟨splitNl_mem_nlfree s t
          (hsp ▸ List.mem_append_right ps (List.mem_singleton_self t)), hl⟩

theorem tokenizeLines_dropLast_newline (s : List Char) :
    ∀ t ∈ (tokenizeLines s).dropLast, t.getLast? = some '\n' := by
  rcases List.eq_nil_or_concat (splitNl s) with hnil | ⟨ps, l, hsp⟩
  · exact absurd hnil (splitNl_ne_nil s)
  · simp only [List.concat_eq_append] at hsp
    intro t ht
    unfold tokenizeLines at ht
    rw [hsp] at ht
    dsimp only at ht
    rw [List.dropLast_concat, List.getLast?_concat] at ht
    have hbody : t ∈ ps.map (fun p => p ++ ['\n']) := by
      by_cases hl : l = []
      · simp only [if_pos hl, List.append_nil] at ht
        exact List.dropLast_subset _ ht
      · simp only [if_neg hl, List.dropLast_concat] at ht
        exact ht
    obtain ⟨p, _, rfl⟩ := List.mem_map.mp hbody
    rw [List.getLast?_concat]

theorem diffSeq_nil_right {α : Type} [DecidableEq α] :
    ∀ (xs : List α), diffSeq xs [] = xs.map .del := by
  intro xs
  induction xs with
  | nil => rfl
  | cons a xs ih => rw [diffSeq_nil_cons, ih, List.map_cons]

theorem kind_mem_map_ins {α : Type} (ys : List α) :
    ∀ op ∈ ys.map (DiffOp.ins), opKind op = .added := by
  intro op hop
  obtain ⟨y, _, rfl⟩ := List.mem_map.mp hop
  rfl

theorem kind_mem_map_del {α : Type} (xs : List α) :
    ∀ op ∈ xs.map (DiffOp.del), opKind op = .removed := by
  intro op hop
  obtain ⟨x, _, rfl⟩ := List.mem_map.mp hop
  rfl

theorem ends_dropLast_tail (a : List Char) (xs : List (List Char))
    (h : ∀ t ∈ (a :: xs).dropLast, t.getLast? = some '\n') :
    ∀ t ∈ xs.dropLast, t.getLast? = some '\n' := by
  intro t ht
  cases xs with
  | nil => simp at ht
  | cons x xs2 =>
    exact h t (by
      rw [List.dropLast_cons₂]
      exact List.mem_cons_of_mem a ht)

theorem ends_head_of_cons (a : List Char) (xs : List (List Char))
    (h : ∀ t ∈ (a :: xs).dropLast, t.getLast? = some '\n')
    (hxs : xs ≠ []) : a.getLast? = some '\n' := by
  cases xs with
  | nil => exact absurd rfl hxs
  | cons x xs2 =>
    exact h a (by rw [List.dropLast_cons₂]; exact List.mem_cons_self a _)

theorem chain_map_ins (ys : List (List Char))
    (hy : ∀ t ∈ ys.dropLast, t.getLast? = some '\n') :
    List.Chain' (fun op op2 => opKind op = opKind op2 →
      (DiffOp.token op).getLast? = some '\n') (ys.map .ins) := by
  induction ys with
  | nil => exact List.chain'_nil
  | cons y ys ih =>
    rw [List.map_cons, List.chain'_cons']
    constructor
    · intro op2 hop2 _
      have hne : ys ≠ [] := by
        intro h
        subst h
        simp at hop2
      exact ends_head_of_cons y ys hy hne
    · exact ih (ends_dropLast_tail y ys hy)

theorem chain_map_del (xs : List (List Char))
    (hx : ∀ t ∈ xs.dropLast, t.getLast? = some '\n') :
    List.Chain' (fun op op2 => opKind op = opKind op2 →
      (DiffOp.token op).getLast? = some '\n') (xs.map .del) := by
  induction xs with
  | nil => exact List.chain'_nil
  | cons x xs ih =>
    rw [List.map_cons, List.chain'_cons']
    constructor
    · intro op2 hop2 _
      have hne : xs ≠ [] := by
        intro h
        subst h
        simp at hop2
      exact ends_head_of_cons x xs hx hne
    · exact ih (ends_dropLast_tail x xs hx)

theorem diffSeq_chain :
    ∀ (xs ys : List (List Char)),
      (∀ t ∈ xs.dropLast, t.getLast? = some '\n') →
      (∀ t ∈ ys.dropLast, t.getLast? = some '\n') →
      List.Chain' (fun op op2 => opKind op = opKind op2 →
        (DiffOp.token op).getLast? = some '\n') (diffSeq xs ys) := by
  intro xs
  induction xs with
  | nil =>
    intro ys _ hy
    exact chain_map_ins ys hy
  | cons a xs ihx =>
    intro ys
    induction ys with
    | nil =>
      intro hx _
      rw [diffSeq_nil_right]
      exact chain_map_del (a :: xs) hx
    | cons b ys ihy =>
      intro hx hy
      rw [diffSeq_cons_cons]
      by_cases hab : a = b
      · rw [if_pos hab]
        rw [List.chain'_cons']
        constructor
        · intro op2 hop2 hkind
          by_contra hna
          have hxs : xs = [] := by
            cases xs with
            | nil => rfl
            | cons x xs2 =>
              exact absurd (hx a (by
                rw [List.dropLast_cons₂]
                exact List.mem_cons_self a _)) hna
          subst hxs
          have hmem : op2 ∈ diffSeq ([] : List (List Char)) ys :=
            List.mem_of_mem_head? hop2
          have hadd : opKind op2 = .added := kind_mem_map_ins ys op2 hmem
          rw [show opKind (DiffOp.keep a) = DiffBlockType.unchanged from rfl]
            at hkind
          rw [hadd] at hkind
          cases hkind
        · exact ihx ys (ends_dropLast_tail a xs hx)
            (ends_dropLast_tail b ys hy)
      · rw [if_neg hab]
        by_cases hle : lcsLen (a :: xs) ys ≤ lcsLen xs (b :: ys)
        · rw [if_pos hle, List.chain'_cons']
          constructor
          · intro op2 hop2 hkind
            by_contra hna
            have hxs : xs = [] := by
              cases xs with
              | nil => rfl
              | cons x xs2 =>
                exact absurd (hx a (by
                  rw [List.dropLast_cons₂]
                  exact List.mem_cons_self a _)) hna
            subst hxs
            have hmem : op2 ∈ diffSeq ([] : List (List Char)) (b :: ys) :=
              List.mem_of_mem_head? hop2
            have hadd : opKind op2 = .added :=
              kind_mem_map_ins (b :: ys) op2 hmem
            rw [show opKind (DiffOp.del a) = DiffBlockType.removed from rfl]
              at hkind
            rw [hadd] at hkind
            cases hkind
          · exact ihx (b :: ys) (ends_dropLast_tail a xs hx) hy
        · rw [if_neg hle, List.chain'_cons']
          constructor
          · intro op2 hop2 hkind
            by_contra hnb
            have hys : ys = [] := by
              cases ys with
              | nil => rfl
              | cons y ys2 =>
                exact absurd (hy b (by
                  rw [List.dropLast_cons₂]
                  exact List.mem_cons_self b _)) hnb
            subst hys
            have hmem : op2 ∈ diffSeq (a :: xs) ([] : List (List Char)) :=
              List.mem_of_mem_head? hop2
            rw [diffSeq_nil_right] at hmem
            have hdel : opKind op2 = .removed :=
              kind_mem_map_del (a :: xs) op2 hmem
            rw [show opKind (DiffOp.ins b) = DiffBlockType.added from rfl]
              at hkind
            rw [hdel] at hkind
            cases hkind
          · exact ihy hx (ends_dropLast_tail b ys hy)

theorem changeType_opChange (op : DiffOp (List Char)) :
    changeType (opChange op) = opKind op := by
  cases op <;> rfl

theorem opChange_value (op : DiffOp (List Char)) :
    (opChange op).value = DiffOp.token op := by
  cases op <;> rfl

theorem flags_iff_kind (op op2 : DiffOp (List Char)) :
    ((opChange op).added = (opChange op2).added ∧
      (opChange op).removed = (opChange op2).removed)
      ↔ opKind op = opKind op2 := by
  cases op <;> cases op2 <;> simp [opChange, opKind]

theorem changeType_eq_of_flags (c d : Change) (h1 : c.added = d.added)
    (h2 : c.removed = d.removed) : changeType c = changeType d := by
  simp [changeType, h1, h2]

theorem buildChanges_cons_nil (op : DiffOp (List Char))
    (rest : List (DiffOp (List Char))) (h : buildChanges rest = []) :
    buildChanges (op :: rest) = [opChange op] := by
  rw [buildChanges_cons, h]

theorem buildChanges_cons_cons (op : DiffOp (List Char))
    (rest : List (DiffOp (List Char))) (c2 : Change) (cs : List Change)
    (h : buildChanges rest = c2 :: cs) :
    buildChanges (op :: rest)
      = if (opChange op).added = c2.added ∧
            (opChange op).removed = c2.removed then
          { value := (opChange op).value ++ c2.value, added := c2.added, removed := c2.removed } :: cs
        else opChange op :: c2 :: cs := by
  rw [buildChanges_cons, h]

theorem buildChanges_head_flags (op : DiffOp (List Char))
    (rest : List (DiffOp (List Char))) :
    ∃ c cs, buildChanges (op :: rest) = c :: cs ∧
      c.added = (opChange op).added ∧ c.removed = (opChange op).removed := by
  cases h : buildChanges rest with
  | nil => exact ⟨opChange op, [], buildChanges_cons_nil op rest h, rfl, rfl⟩
  | cons c2 cs =>
    rw [buildChanges_cons_cons op rest c2 cs h]
    by_cases hc : (opChange op).added = c2.added ∧
        (opChange op).removed = c2.removed
    · rw [if_pos hc]
      exact ⟨_, cs, rfl, hc.1.symm, hc.2.symm⟩
    · rw [if_neg hc]
      exact ⟨opChange op, c2 :: cs, rfl, rfl, rfl⟩

theorem changesLineCount_cons (c : Change) (cs : List Change)
    (ty : DiffBlockType) :
    changesLineCount (c :: cs) ty
      = (if changeType c = ty then (changeLines c.value).length else 0)
        + changesLineCount cs ty := by
  simp [changesLineCount]

theorem isLineToken_newline_decomp (t : List Char) (ht : IsLineToken t)
    (he : t.getLast? = some '\n') :
    ∃ w, '\n' ∉ w ∧ t = w ++ ['\n'] := by
  rcases ht with ⟨w, hw, hwe⟩ | ⟨hnl, _⟩
  · exact ⟨w, hw, hwe⟩
  · exact absurd (List.mem_of_mem_getLast? he) hnl

theorem changesLineCount_buildChanges :
    ∀ (ops : List (DiffOp (List Char))),
      (∀ op ∈ ops, IsLineToken (DiffOp.token op)) →
      List.Chain' (fun op op2 => opKind op = opKind op2 →
        (DiffOp.token op).getLast? = some '\n') ops →
      ∀ ty, changesLineCount (buildChanges ops) ty = countOps ops ty := by
  intro ops
  induction ops with
  | nil => intro _ _ ty; rfl
  | cons op rest ih =>
    intro htok hchain ty
    have htok0 : IsLineToken (DiffOp.token op) :=
      htok op (List.mem_cons_self op rest)
    obtain ⟨w0, hcl0⟩ := changeLines_token (DiffOp.token op) htok0
    cases rest with
    | nil =>
      rw [show buildChanges [op] = [opChange op] from rfl]
      rw [changesLineCount_cons, countOps_cons]
      rw [changeType_opChange, opChange_value, hcl0]
      simp [changesLineCount, countOps_nil]
    | cons r0 rest2 =>
      obtain ⟨c2, cs2, hbc, hfa, hfr⟩ := buildChanges_head_flags r0 rest2
      have hct2 : changeType c2 = opKind r0 := by
        rw [← changeType_opChange r0]
        exact changeType_eq_of_flags c2 (opChange r0) hfa hfr
      have ihr := ih (fun o ho => htok o (List.mem_cons_of_mem op ho))
        (List.Chain'.tail hchain) ty
      rw [hbc, changesLineCount_cons] at ihr
      rw [buildChanges_cons_cons op (r0 :: rest2) c2 cs2 hbc]
      by_cases hkind : opKind op = opKind r0
      · have hcond : (opChange op).added = c2.added ∧
            (opChange op).removed = c2.removed := by
          rw [hfa, hfr]
          exact (flags_iff_kind op r0).mpr hkind
        rw [if_pos hcond]
        have hends : (DiffOp.token op).getLast? = some '\n' :=
          (List.chain'_cons.mp hchain).1 hkind
        obtain ⟨w, hw, hwe⟩ := isLineToken_newline_decomp _ htok0 hends
        rw [changesLineCount_cons]
        have hcty : changeType ({ value := (opChange op).value ++ c2.value, added := c2.added, removed := c2.removed } : Change)
            = changeType c2 := rfl
        have hval : ({ value := (opChange op).value ++ c2.value, added := c2.added, removed := c2.removed } : Change).value
            = (w ++ ['\n']) ++ c2.value := by
          rw [opChange_value, hwe]
        rw [hcty, hval, changeLines_token_append w c2.value hw]
        rw [countOps_cons]
        rw [← hct2] at hkind
        by_cases hty : changeType c2 = ty
        · rw [if_pos hty] at ihr ⊢
          rw [if_pos (by rw [hkind]; exact hty)]
          simp only [List.length_cons]
          omega
        · rw [if_neg hty] at ihr ⊢
          rw [if_neg (by rw [hkind]; exact hty)]
          omega
      · have hcond : ¬((opChange op).added = c2.added ∧
            (opChange op).removed = c2.removed) := by
          rw [hfa, hfr]
          exact fun h => hkind ((flags_iff_kind op r0).mp h)
        rw [if_neg hcond]
        rw [changesLineCount_cons, countOps_cons]
        rw [changeType_opChange, opChange_value, hcl0]
        rw [changesLineCount_cons, ← ihr]
        simp only [List.length_singleton]

theorem renderLines_blocks (ty : DiffBlockType) (format : DiffFormat) :
    ∀ (lines : List (List Char)) (l o n : Nat),
      ((renderLines ty format lines l o n).1.length = lines.length)
      ∧ (∀ b ∈ (renderLines ty format lines l o n).1, b.type = ty) := by
  intro lines
  induction lines with
  | nil =>
    intro l o n
    cases ty <;> exact ⟨rfl, by intro b hb; simp [renderLines] at hb⟩
  | cons line rest ih =>
    intro l o n
    cases ty with
    | added =>
      refine ⟨?_, ?_⟩
      · simp only [renderLines, List.length_cons]
        rw [(ih _ _ _).1]
      · intro b hb
        simp only [renderLines, List.mem_cons] at hb
        rcases hb with rfl | hb
        · rfl
        · exact (ih _ _ _).2 b hb
    | removed =>
      refine ⟨?_, ?_⟩
      · simp only [renderLines, List.length_cons]
        rw [(ih _ _ _).1]
      · intro b hb
        simp only [renderLines, List.mem_cons] at hb
        rcases hb with rfl | hb
        · rfl
        · exact (ih _ _ _).2 b hb
    | unchanged =>
      refine ⟨?_, ?_⟩
      · simp only [renderLines, List.length_cons]
        rw [(ih _ _ _).1]
      · intro b hb
        simp only [renderLines, List.mem_cons] at hb
        rcases hb with rfl | hb
        · rfl
        · exact (ih _ _ _).2 b hb

theorem countBlocks_append (b1 b2 : List DiffBlock) (ty : DiffBlockType) :
    countBlocks (b1 ++ b2) ty = countBlocks b1 ty + countBlocks b2 ty := by
  simp [countBlocks, List.filter_append]

theorem countBlocks_const_type (blocks : List DiffBlock)
    (ty0 ty : DiffBlockType) (h : ∀ b ∈ blocks, b.type = ty0) :
    countBlocks blocks ty = if ty0 = ty then blocks.length else 0 := by
  by_cases hty : ty0 = ty
  · have hfil : blocks.filter (fun b => decide (b.type = ty)) = blocks :=
      List.filter_eq_self.mpr (fun a ha => by simp [h a ha, ← hty])
    rw [if_pos hty]
    unfold countBlocks
    rw [hfil]
  · have hfil : blocks.filter (fun b => decide (b.type = ty)) = [] :=
      List.filter_eq_nil_iff.mpr (fun a ha => by
        simp only [decide_eq_true_eq]
        rw [h a ha]
        exact hty)
    rw [if_neg hty]
    unfold countBlocks
    rw [hfil]
    rfl

theorem countBlocks_renderChanges (format : DiffFormat) :
    ∀ (cs : List Change) (l o n : Nat) (ty : DiffBlockType),
      countBlocks (renderChanges format cs l o n) ty
        = changesLineCount cs ty := by
  intro cs
  induction cs with
  | nil => intro l o n ty; rfl
  | cons c cs ih =>
    intro l o n ty
    simp only [renderChanges]
    rw [countBlocks_append, changesLineCount_cons]
    rw [countBlocks_const_type _ (changeType c) ty
      (renderLines_blocks (changeType c) format _ _ _ _).2]
    rw [(renderLines_blocks (changeType c) format _ _ _ _).1]
    rw [ih]

theorem diffSeq_token_mem {α : Type} [DecidableEq α] :
    ∀ (xs ys : List α) (op : DiffOp α), op ∈ diffSeq xs ys →
      DiffOp.token op ∈ xs ∨ DiffOp.token op ∈ ys := by
  intro xs
  induction xs with
  | nil =>
    intro ys op hop
    obtain ⟨y, hy, rfl⟩ := List.mem_map.mp hop
    exact Or.inr hy
  | cons a xs ihx =>
    intro ys
    induction ys with
    | nil =>
      intro op hop
      rw [diffSeq_nil_right] at hop
      obtain ⟨x, hx, rfl⟩ := List.mem_map.mp hop
      exact Or.inl hx
    | cons b ys ihy =>
      intro op hop
      rw [diffSeq_cons_cons] at hop
      by_cases hab : a = b
      · rw [if_pos hab] at hop
        rcases List.mem_cons.mp hop with rfl | hop2
        · exact Or.inl (by simp [DiffOp.token])
        · rcases ihx ys op hop2 with h | h
          · exact Or.inl (List.mem_cons_of_mem a h)
          · exact Or.inr (List.mem_cons_of_mem b h)
      · rw [if_neg hab] at hop
        by_cases hle : lcsLen (a :: xs) ys ≤ lcsLen xs (b :: ys)
        · rw [if_pos hle] at hop
          rcases List.mem_cons.mp hop with rfl | hop2
          · exact Or.inl (by simp [DiffOp.token])
          · rcases ihx (b :: ys) op hop2 with h | h
            · exact Or.inl (List.mem_cons_of_mem a h)
            · exact Or.inr h
        · rw [if_neg hle] at hop
          rcases List.mem_cons.mp hop with rfl | hop2
          · exact Or.inr (by simp [DiffOp.token])
          · rcases ihy op hop2 with h | h
            · exact Or.inl h
            · exact Or.inr (List.mem_cons_of_mem b h)

/-- Counterexample to claim C8 as stated: for the texts a-b and b-a the
role-swapped diff of the first pair is not the diff of the reversed pair;
already the typed content groupings differ. -/
theorem C8_counterexample :
    ¬ ((generateDiff ("a\nb\n".toList) ("b\na\n".toList) .inline).map
        (fun b => (swapBlockType b.type, b.content))
      = (generateDiff ("b\na\n".toList) ("a\nb\n".toList) .inline).map
        (fun b => (b.type, b.content))) := by decide

/-- Claim C8 (amended): the diff of A against B and the diff of B against
A agree in line counts with the roles of added and removed swapped: each
block type occurs in the diff of (A,B) exactly as often as its
role-swapped type occurs in the diff of (B,A); the content groupings
themselves may differ. -/
theorem C8_swapped_role_line_counts :
    ∀ (A B : List Char) (format : DiffFormat) (ty : DiffBlockType),
      countBlocks (generateDiff A B format) ty
        = countBlocks (generateDiff B A format) (swapBlockType ty) := by
  intro A B format ty
  have key : ∀ (X Y : List Char) (t : DiffBlockType),
      countBlocks (generateDiff X Y format) t
        = countOps (diffSeq (tokenizeLines X) (tokenizeLines Y)) t := by
    intro X Y t
    unfold generateDiff diffLinesChanges
    rw [countBlocks_renderChanges]
    exact changesLineCount_buildChanges _
      (fun op hop => by
        rcases diffSeq_token_mem _ _ op hop with h | h
        · exact tokenizeLines_isLineToken X _ h
        · exact tokenizeLines_isLineToken Y _ h)
      (diffSeq_chain _ _ (tokenizeLines_dropLast_newline X)
        (tokenizeLines_dropLast_newline Y)) t
  rw [key, key]
  have hcomm := lcsLen_comm (tokenizeLines A) (tokenizeLines B)
  cases ty with
  | unchanged =>
    show countOps _ DiffBlockType.unchanged
        = countOps _ DiffBlockType.unchanged
    rw [countOps_keep_diffSeq, countOps_keep_diffSeq, hcomm]
  | added =>
    show countOps _ DiffBlockType.added = countOps _ DiffBlockType.removed
    have h1 := countOps_ins_diffSeq (tokenizeLines A) (tokenizeLines B)
    have h2 := countOps_del_diffSeq (tokenizeLines B) (tokenizeLines A)
    omega
  | removed =>
    show countOps _ DiffBlockType.removed = countOps _ DiffBlockType.added
    have h1 := countOps_del_diffSeq (tokenizeLines A) (tokenizeLines B)
    have h2 := countOps_ins_diffSeq (tokenizeLines B) (tokenizeLines A)
    omega

theorem addNewAncestors_spec : ∀ (ps anc q : List String), ∃ news,
    addNewAncestors anc q ps = (anc ++ news, q ++ news) ∧ news.Nodup ∧
      (∀ x ∈ news, x ∈ ps ∧ x ∉ anc) ∧
      (∀ x ∈ ps, x ∈ anc ++ news) := by
  intro ps
  induction ps with
  | nil =>
    intro anc q
    exact ⟨[], by simp [addNewAncestors], by simp, by simp, by simp⟩
  | cons p ps ih =>
    intro anc q
    by_cases hp : p ∈ anc
    · obtain ⟨news, h1, h2, h3, h4⟩ := ih anc q
      refine ⟨news, by simpa [addNewAncestors, hp] using h1, h2, ?_, ?_⟩
      · exact fun x hx => ⟨List.mem_cons_of_mem _ (h3 x hx).1, (h3 x hx).2⟩
      · intro x hx
        rcases List.mem_cons.mp hx with rfl | hx2
        · exact List.mem_append_left news hp
        · exact h4 x hx2
    · obtain ⟨news, h1, h2, h3, h4⟩ := ih (anc ++ [p]) (q ++ [p])
      refine ⟨p :: news, ?_, ?_, ?_, ?_⟩
      · simpa [addNewAncestors, hp] using h1
      · exact List.nodup_cons.mpr ⟨fun hx => ((h3 p hx).2 (by simp)), h2⟩
      · intro x hx
        rcases List.mem_cons.mp hx with rfl | hx2
        · exact ⟨by simp, hp⟩
        · have := h3 x hx2
          exact ⟨List.mem_cons_of_mem _ this.1,
            fun hxa => this.2 (by simp [hxa])⟩
      · intro x hx
        rcases List.mem_cons.mp hx with rfl | hx2
        · simp
        · have := h4 x hx2
          simp only [List.append_assoc, List.singleton_append] at this
          exact this

theorem getAncestorsLoop_nil (links : List TraceabilityLink)
    (anc : List String) : getAncestorsLoop links [] anc = anc := by
  rw [getAncestorsLoop]

theorem getAncestorsLoop_cons (links : List TraceabilityLink) (c : String)
    (rest anc : List String) :
    getAncestorsLoop links (c :: rest) anc
      = getAncestorsLoop links
          (addNewAncestors anc rest
            ((findParents links c).map (fun e => e.parentId))).2
          (addNewAncestors anc rest
            ((findParents links c).map (fun e => e.parentId))).1 := by
  rw [getAncestorsLoop]

theorem parentStep_mem_parents (links : List TraceabilityLink)
    (c p : String) (h : parentStep links c p) :
    p ∈ (findParents links c).map (fun e => e.parentId) := by
  obtain ⟨e, he, hc, hp⟩ := h
  exact List.mem_map.mpr ⟨e, List.mem_filter.mpr ⟨he, by simp [hc]⟩, hp⟩

theorem mem_parents_parentStep (links : List TraceabilityLink)
    (c p : String) (h : p ∈ (findParents links c).map (fun e => e.parentId)) :
    parentStep links c p := by
  obtain ⟨e, he, rfl⟩ := List.mem_map.mp h
  have he2 := List.mem_filter.mp he
  exact ⟨e, he2.1, by simpa using he2.2, rfl⟩

theorem getAncestorsLoop_sound (links : List TraceabilityLink) (s : String) :
    ∀ (q anc : List String),
      (∀ x ∈ anc, AncestorOf links s x) →
      (∀ x ∈ q, x = s ∨ AncestorOf links s x) →
      ∀ x ∈ getAncestorsLoop links q anc, AncestorOf links s x := by
  intro q anc
  induction q, anc using getAncestorsLoop.induct links with
  | case1 anc =>
    intro h1 _ x hx
    rw [getAncestorsLoop_nil] at hx
    exact h1 x hx
  | case2 anc c rest ps r ih =>
    intro h1 h2 x hx
    rw [getAncestorsLoop_cons] at hx
    obtain ⟨news, heq, _, h3, _⟩ := addNewAncestors_spec
      ((findParents links c).map (fun e => e.parentId)) anc rest
    have hparent : ∀ p ∈ (findParents links c).map (fun e => e.parentId),
        AncestorOf links s p := by
      intro p hp
      have hstep : parentStep links c p := mem_parents_parentStep links c p hp
      rcases h2 c (by simp) with rfl | hanc
      · exact Relation.TransGen.single hstep
      · exact Relation.TransGen.tail hanc hstep
    have hr : r = (anc ++ news, rest ++ news) := heq
    refine ih ?_ ?_ x ?_
    · intro y hy
      rw [hr] at hy
      replace hy : y ∈ anc ++ news := hy
      rcases List.mem_append.mp hy with hy1 | hy2
      · exact h1 y hy1
      · exact hparent y (h3 y hy2).1
    · intro y hy
      rw [hr] at hy
      replace hy : y ∈ rest ++ news := hy
      rcases List.mem_append.mp hy with hy1 | hy2
      · exact h2 y (List.mem_cons_of_mem c hy1)
      · exact Or.inr (hparent y (h3 y hy2).1)
    · exact hx

theorem getAncestorsLoop_closed (links : List TraceabilityLink) :
    ∀ (q anc : List String),
      (∀ d ∈ anc, d ∈ q ∨ ∀ p, parentStep links d p → p ∈ anc) →
      (∀ x ∈ anc, x ∈ getAncestorsLoop links q anc) ∧
      (∀ d ∈ q, ∀ p, parentStep links d p →
        p ∈ getAncestorsLoop links q anc) ∧
      (∀ d ∈ getAncestorsLoop links q anc, ∀ p, parentStep links d p →
        p ∈ getAncestorsLoop links q anc) := by
  intro q anc
  induction q, anc using getAncestorsLoop.induct links with
  | case1 anc =>
    intro hinv
    rw [getAncestorsLoop_nil]
    refine ⟨fun x hx => hx, fun d hd => absurd hd (List.not_mem_nil d), ?_⟩
    intro d hd p hp
    rcases hinv d hd with hq | hpar
    · exact absurd hq (List.not_mem_nil d)
    · exact hpar p hp
  | case2 anc c rest ps r ih =>
    intro hinv
    obtain ⟨news, heq, hnd, h3, h4⟩ := addNewAncestors_spec
      ((findParents links c).map (fun e => e.parentId)) anc rest
    have hr : r = (anc ++ news, rest ++ news) := heq
    have hinv2 : ∀ d ∈ anc ++ news,
        d ∈ rest ++ news ∨ ∀ p, parentStep links d p → p ∈ anc ++ news := by
      intro d hd
      rcases List.mem_append.mp hd with hda | hdn
      · rcases hinv d hda with hq | hpar
        · rcases List.mem_cons.mp hq with rfl | hdr
          · right
            intro p hp
            exact h4 p (parentStep_mem_parents links d p hp)
          · exact Or.inl (List.mem_append_left news hdr)
        · right
          intro p hp
          exact List.mem_append_left news (hpar p hp)
      · exact Or.inl (List.mem_append_right rest hdn)
    have ih2 := ih (by rw [hr]; exact hinv2)
    rw [hr] at ih2
    obtain ⟨ihA, ihB, ihC⟩ := ih2
    rw [getAncestorsLoop_cons, heq]
    refine ⟨?_, ?_, ?_⟩
    · intro x hx
      exact ihA x (List.mem_append_left news hx)
    · intro d hd p hp
      rcases List.mem_cons.mp hd with rfl | hdr
      · exact ihA p (h4 p (parentStep_mem_parents links d p hp))
      · exact ihB d (List.mem_append_left news hdr) p hp
    · exact ihC

theorem getAncestors_mem_iff (links : List TraceabilityLink) (s x : String) :
    x ∈ getAncestors links s ↔ AncestorOf links s x := by
  constructor
  · intro hx
    exact getAncestorsLoop_sound links s [s] [] (by simp)
      (fun y hy => Or.inl (by simpa using hy)) x hx
  · intro hanc
    obtain ⟨_, hB, hC⟩ := getAncestorsLoop_closed links [s] [] (by simp)
    have hanc2 : Relation.TransGen (parentStep links) s x := hanc
    induction hanc2 with
    | single h => exact hB s (by simp) _ h
    | tail h1 h2 ih => exact hC _ (ih h1) _ h2

theorem parentStep_append (links : List TraceabilityLink)
    (e0 : TraceabilityLink) (x y : String) :
    parentStep (links ++ [e0]) x y ↔
      parentStep links x y ∨ (x = e0.childId ∧ y = e0.parentId) := by
  constructor
  · rintro ⟨e, he, hc, hp⟩
    rcases List.mem_append.mp he with h | h
    · exact Or.inl ⟨e, h, hc, hp⟩
    · simp only [List.mem_singleton] at h
      subst h
      exact Or.inr ⟨hc.symm, hp.symm⟩
  · rintro (⟨e, he, hc, hp⟩ | ⟨rfl, rfl⟩)
    · exact ⟨e, List.mem_append_left _ he, hc, hp⟩
    · exact ⟨e0, List.mem_append_right _ (by simp), rfl, rfl⟩

theorem transGen_insert_decompose (links : List TraceabilityLink)
    (e0 : TraceabilityLink) (x y : String)
    (h : Relation.TransGen (parentStep (links ++ [e0])) x y) :
    Relation.TransGen (parentStep links) x y ∨
      (Relation.ReflTransGen (parentStep links) x e0.childId ∧
        Relation.ReflTransGen (parentStep (links ++ [e0])) e0.parentId y) := by
  induction h using Relation.TransGen.head_induction_on with
  | base h =>
    rcases (parentStep_append links e0 _ _).mp h with h1 | ⟨rfl, rfl⟩
    · exact Or.inl (Relation.TransGen.single h1)
    · exact Or.inr ⟨Relation.ReflTransGen.refl, Relation.ReflTransGen.refl⟩
  | ih hstep htail ihp =>
    rcases (parentStep_append links e0 _ _).mp hstep with h1 | ⟨rfl, rfl⟩
    · rcases ihp with ih1 | ⟨ih2, ih3⟩
      · exact Or.inl (Relation.TransGen.head h1 ih1)
      · exact Or.inr ⟨Relation.ReflTransGen.head h1 ih2, ih3⟩
    · exact Or.inr ⟨Relation.ReflTransGen.refl, htail.to_reflTransGen⟩

theorem acyclic_insert (links : List TraceabilityLink)
    (e0 : TraceabilityLink) (hacy : Acyclic links)
    (hne : e0.parentId ≠ e0.childId)
    (hnanc : ¬ AncestorOf links e0.parentId e0.childId) :
    Acyclic (links ++ [e0]) := by
  have hB : ¬ Relation.ReflTransGen (parentStep (links ++ [e0]))
      e0.parentId e0.childId := by
    intro hrtg
    rcases Relation.reflTransGen_iff_eq_or_transGen.mp hrtg with heq | htg
    · exact hne heq.symm
    · rcases transGen_insert_decompose links e0 _ _ htg with h | ⟨h1, _⟩
      · exact hnanc h
      · rcases Relation.reflTransGen_iff_eq_or_transGen.mp h1 with heq2 | htg2
        · exact hne heq2.symm
        · exact hnanc htg2
  intro n hn
  rcases transGen_insert_decompose links e0 n n hn with h | ⟨h1, h2⟩
  · exact hacy n h
  · exact hB (h2.trans (Relation.ReflTransGen.mono
      (fun a b hab => (parentStep_append links e0 a b).mpr (Or.inl hab)) h1))

theorem linkPOST_links (db : LinkDB) (p c u n : String) (t : Nat) :
    (linkPOST db p c u n t).2.links = db.links ∨
      (p ≠ c ∧ hasCircularDependency db.links p c = false ∧
        (linkPOST db p c u n t).2.links
          = db.links ++ [⟨n, p, c, u, t⟩]) := by
  by_cases hpc : p = c
  · left
    simp [linkPOST, hpc]
  · cases hfp : findSpecById db.specs p with
    | none =>
      left
      simp [linkPOST, hpc, hfp]
    | some sp =>
      cases hfc : findSpecById db.specs c with
      | none =>
        left
        simp [linkPOST, hpc, hfp, hfc]
      | some sc =>
        cases hfl : findLink db.links p c with
        | some l =>
          left
          simp [linkPOST, hpc, hfp, hfc, hfl]
        | none =>
          by_cases hcd : hasCircularDependency db.links p c = true
          · left
            simp [linkPOST, createLink, hpc, hfp, hfc, hfl, hcd]
          · right
            refine ⟨hpc, by simpa using hcd, ?_⟩
            simp [linkPOST, createLink, hpc, hfp, hfc, hfl, hcd]

theorem linkPOST_preserves_acyclic (db : LinkDB) (p c u n : String)
    (t : Nat) (hacy : Acyclic db.links) :
    Acyclic ((linkPOST db p c u n t).2).links := by
  rcases linkPOST_links db p c u n t with h | ⟨hpc, hcd, h⟩
  · rw [h]
    exact hacy
  · rw [h]
    refine acyclic_insert db.links ⟨n, p, c, u, t⟩ hacy hpc ?_
    intro hanc
    have hmem : c ∈ getAncestors db.links p :=
      (getAncestors_mem_iff db.links p c).mpr hanc
    simp only [hasCircularDependency, decide_eq_false_iff_not] at hcd
    exact hcd hmem

theorem applyLinkRequests_preserves_acyclic (reqs : List LinkReq) :
    ∀ db : LinkDB, Acyclic db.links →
      Acyclic (applyLinkRequests db reqs).links := by
  induction reqs with
  | nil =>
    intro db h
    exact h
  | cons r rs ih =>
    intro db h
    exact ih _ (linkPOST_preserves_acyclic _ _ _ _ _ _ h)

/-- C3: createLink throws CircularDependency exactly when the proposed
child is already a transitive ancestor (along child-to-parent edges) of
the proposed parent; a successful createLink(P, C) makes the reversed
createLink(C, P) on the resulting edge set fail with CircularDependency;
and starting from an acyclic edge set, the relationship graph stays a
directed acyclic graph under every sequence of link-creation requests
handled by the link route. -/
theorem C3_circular_dependency_dag :
    (∀ (links : List TraceabilityLink) (newId p c u : String) (t : Nat),
       createLink links newId p c u t
           = Except.error CreateLinkError.CircularDependency ↔
         AncestorOf links p c) ∧
    (∀ (links : List TraceabilityLink) (n1 n2 p c u u2 : String)
       (t t2 : Nat) (link : TraceabilityLink)
       (links2 : List TraceabilityLink),
       createLink links n1 p c u t = Except.ok (link, links2) →
       createLink links2 n2 c p u2 t2
         = Except.error CreateLinkError.CircularDependency) ∧
    (∀ (db : LinkDB) (reqs : List LinkReq),
       Acyclic db.links → Acyclic (applyLinkRequests db reqs).links) := by
  have key : ∀ (links : List TraceabilityLink) (newId p c u : String)
      (t : Nat),
      createLink links newId p c u t
          = Except.error CreateLinkError.CircularDependency ↔
        AncestorOf links p c := by
    intro links newId p c u t
    constructor
    · intro h
      by_cases hcd : hasCircularDependency links p c = true
      · simp only [hasCircularDependency, decide_eq_true_eq] at hcd
        exact (getAncestors_mem_iff links p c).mp hcd
      · exfalso
        simp only [createLink] at h
        rw [if_neg hcd] at h
        simp at h
    · intro hanc
      have hmem : c ∈ getAncestors links p :=
        (getAncestors_mem_iff links p c).mpr hanc
      simp [createLink, hasCircularDependency, hmem]
  refine ⟨key, ?_, ?_⟩
  · intro links n1 n2 p c u u2 t t2 link links2 h
    by_cases hcd : hasCircularDependency links p c = true
    · exfalso
      simp only [createLink] at h
      rw [if_pos hcd] at h
      simp at h
    · simp only [createLink] at h
      rw [if_neg hcd] at h
      injection h with h2
      injection h2 with hl hls
      have hanc2 : AncestorOf links2 c p := by
        refine Relation.TransGen.single ?_
        refine ⟨⟨n1, p, c, u, t⟩, ?_, rfl, rfl⟩
        rw [← hls]
        exact List.mem_append_right _ (by simp)
      have hmem : p ∈ getAncestors links2 c :=
        (getAncestors_mem_iff links2 c p).mpr hanc2
      simp [createLink, hasCircularDependency, hmem]
  · intro db reqs hacy
    exact applyLinkRequests_preserves_acyclic reqs db hacy

/-- Witness for C3 at a concrete input: on an empty edge set,
createLink(a, b) succeeds and returns the inserted edge, and the
reversed createLink(b, a) on the resulting edge set fails with
CircularDependency. -/
theorem C3_witness :
    createLink [] ("l1") ("a") ("b") ("u") 0
        = Except.ok ((⟨"l1", "a", "b", "u", 0⟩ : TraceabilityLink),
            [(⟨"l1", "a", "b", "u", 0⟩ : TraceabilityLink)]) ∧
    createLink [(⟨"l1", "a", "b", "u", 0⟩ : TraceabilityLink)] ("l2")
        ("b") ("a") ("u") 1
      = Except.error CreateLinkError.CircularDependency := by
  have h1 : createLink [] ("l1") ("a") ("b") ("u") 0
      = Except.ok ((⟨"l1", "a", "b", "u", 0⟩ : TraceabilityLink),
          [(⟨"l1", "a", "b", "u", 0⟩ : TraceabilityLink)]) := by
    simp [createLink, hasCircularDependency, getAncestors, getAncestorsLoop,
      addNewAncestors, findParents]
  exact ⟨h1, C3_circular_dependency_dag.2.1 [] ("l1") ("l2") ("a") ("b")
    ("u") ("u") 0 1 _ _ h1⟩
